import Mathlib

/-!
A download tool with a persisted history: shallow embedding of `main.go`.

The Go program downloads files from URLs, records what it fetched in a JSON
history file and skips what it already has.  This file embeds the program in
Lean and proves the properties of its specification.

Conventions of the embedding:

* A Go `string` is a sequence of bytes.  It is embedded as a Lean `String`
  read one `Char` per byte (the `Char` with code `b` stands for the byte `b`),
  so an ASCII literal of the source is the same literal here.
* A Go `map[string]V` is embedded as an association list `GoMap V`; Go leaves
  the iteration order of a map unspecified, and the theorems hold for every
  order of the list.  Two maps are the same when each key has the same value
  in both.
* The file system, the network and the clock are explicit: `FS` is the state
  of the disk, `http.Get` is answered by an oracle `String → http.Result`, and
  `time.Now()` is a parameter.  A stateful function of the source takes the
  disk and returns the disk after the call.
* The functions of the Go standard library that the program calls
  (`url.Parse`, `filepath.Base`, `filepath.Ext`, `filepath.Join`,
  `strings.TrimSuffix`, `strings.TrimSpace`, `sha256.Sum256`,
  `hex.EncodeToString`) are embedded from their documented behaviour on a
  Unix system (Go 1.22).  `encoding/json` is a parameter, `json.Codec`, of
  `loadHistory`, `saveHistory` and the loop; `json.standard` is the codec
  that treats the strings of a history as `encoding/json` does.
* Printing (`fmt.Printf`, the progress bar of `ProgressWriter`,
  `formatBytes`) has no effect on any value the program computes or stores
  and is left out.  The calls of `downloadFile` and `saveHistory` that a pass
  of the loop makes are recorded in its result.

Contents:

1. the standard library: `strings`, `sha256`, `hex`, `url`, `filepath`, `os`,
   `http`, `json`;
2. the program: `urlHash`, `filenameFromURL`, `downloadFile`, `loadHistory`,
   `saveHistory`, `processURL` (one pass of the loop of `main`),
   `Downloader.main`;
3. concrete disks, networks and histories for the examples;
4. lemmas;
5. the claims `C1` to `C10` of the specification.
-/

set_option autoImplicit false

/-! ## Go standard library: `strings` -/

namespace strings

/-- Go `strings.Cut(s, sep)` for a one-byte separator, on the bytes of `s`:
the text before and after the first `sep`, or `none` when `sep` is absent. -/
def cutL (sep : Char) : List Char → Option (List Char × List Char)
  | [] => none
  | c :: cs =>
      if c = sep then some ([], cs)
      else match cutL sep cs with
        | some (b, a) => some (c :: b, a)
        | none => none

/-- Go `strings.LastIndex(s, sep) >= 0` split: the text before and after the
last `sep`, or `none` when `sep` is absent. -/
def cutLastL (sep : Char) : List Char → Option (List Char × List Char)
  | [] => none
  | c :: cs =>
      match cutLastL sep cs with
      | some (b, a) => some (c :: b, a)
      | none => if c = sep then some ([], cs) else none

/-- Go `strings.TrimSuffix(s, suffix)`: `s` without the trailing `suffix`,
or `s` itself when it does not end with `suffix`. -/
def TrimSuffix (s suffix : String) : String :=
  if suffix.data <:+ s.data then ⟨s.data.take (s.data.length - suffix.data.length)⟩ else s

/-- The byte sequences that are the UTF-8 encodings of the code points for
which Go `unicode.IsSpace` holds: tab, LF, VT, FF, CR, space, U+0085, U+00A0,
U+1680, U+2000 to U+200A, U+2028, U+2029, U+202F, U+205F, U+3000. -/
def spaceEncodings : List (List Char) :=
  ([9, 10, 11, 12, 13, 32].map fun b => [Char.ofNat b]) ++
  [[Char.ofNat 0xC2, Char.ofNat 0x85], [Char.ofNat 0xC2, Char.ofNat 0xA0],
   [Char.ofNat 0xE1, Char.ofNat 0x9A, Char.ofNat 0x80]] ++
  ([0x80, 0x81, 0x82, 0x83, 0x84, 0x85, 0x86, 0x87, 0x88, 0x89, 0x8A, 0xA8, 0xA9, 0xAF].map
    fun b => [Char.ofNat 0xE2, Char.ofNat 0x80, Char.ofNat b]) ++
  [[Char.ofNat 0xE2, Char.ofNat 0x81, Char.ofNat 0x9F],
   [Char.ofNat 0xE3, Char.ofNat 0x80, Char.ofNat 0x80]]

/-- Removes one leading white-space code point, if there is one. -/
def dropSpace (s : List Char) : Option (List Char) :=
  (spaceEncodings.find? fun e => e.isPrefixOf s).map fun e => s.drop e.length

/-- Removes all leading white space; `fuel` bounds the number of code points. -/
def trimLeftL : Nat → List Char → List Char
  | 0, s => s
  | fuel + 1, s =>
      match dropSpace s with
      | some rest => trimLeftL fuel rest
      | none => s

/-- Removes one trailing white-space code point, if there is one. -/
def dropSpaceRight (s : List Char) : Option (List Char) :=
  (spaceEncodings.find? fun e => e.reverse.isPrefixOf s.reverse).map
    fun e => s.take (s.length - e.length)

/-- Removes all trailing white space; `fuel` bounds the number of code points. -/
def trimRightL : Nat → List Char → List Char
  | 0, s => s
  | fuel + 1, s =>
      match dropSpaceRight s with
      | some rest => trimRightL fuel rest
      | none => s

/-- Go `strings.TrimSpace(s)`: `s` without leading and trailing white space,
as defined by Unicode. -/
def TrimSpace (s : String) : String :=
  ⟨trimRightL s.data.length (trimLeftL s.data.length s.data)⟩

end strings

/-! ## Go standard library: `crypto/sha256` and `encoding/hex` -/

namespace sha256

/-- The largest `r` below `2 ^ bits` above `acc` with `r ^ k ≤ x`, found bit
by bit from the top: the integer part of the `k`-th root of `x`. -/
def rootFrom (k x : Nat) : Nat → Nat → Nat
  | 0, acc => acc
  | bits + 1, acc =>
      if (acc + 2 ^ bits) ^ k ≤ x then rootFrom k x bits (acc + 2 ^ bits)
      else rootFrom k x bits acc

/-- The first 64 prime numbers. -/
def primes : List Nat :=
  [2, 3, 5, 7, 11, 13, 17, 19, 23, 29, 31, 37, 41, 43, 47, 53, 59, 61, 67, 71, 73, 79, 83, 89, 97,
   101, 103, 107, 109, 113, 127, 131, 137, 139, 149, 151, 157, 163, 167, 173, 179, 181, 191, 193,
   197, 199, 211, 223, 227, 229, 233, 239, 241, 251, 257, 263, 269, 271, 277, 281, 283, 293, 307,
   311]

/-- The 64 round constants of SHA-256 (FIPS 180-4, section 4.2.2): the first
32 bits of the fractional parts of the cube roots of the first 64 primes. -/
def K : List Nat := primes.map fun p => rootFrom 3 (p * 2 ^ 96) 40 0 % 4294967296

/-- The initial hash value of SHA-256 (FIPS 180-4, section 5.3.3): the first
32 bits of the fractional parts of the square roots of the first 8 primes. -/
def H0 : List Nat := (primes.take 8).map fun p => rootFrom 2 (p * 2 ^ 64) 40 0 % 4294967296

/-- Rotation of a 32-bit word to the right by `n` bits. -/
def rotr (x n : Nat) : Nat := ((x >>> n) ||| (x <<< (32 - n))) % 4294967296

/-- Padding of a message: the byte `0x80`, zero bytes up to 56 modulo 64, and
the length of the message in bits as 8 big-endian bytes. -/
def pad (m : List Nat) : List Nat :=
  m ++ 128 :: List.replicate ((119 - m.length % 64) % 64) 0 ++
    (List.range 8).map (fun i => (8 * m.length) >>> (8 * (7 - i)) % 256)

/-- The first `n` big-endian 32-bit words of a byte sequence. -/
def beWords : Nat → List Nat → List Nat
  | 0, _ => []
  | n + 1, b0 :: b1 :: b2 :: b3 :: rest =>
      (b0 % 256 * 16777216 + b1 % 256 * 65536 + b2 % 256 * 256 + b3 % 256) :: beWords n rest
  | _ + 1, _ => []

/-- Extends the message schedule `w` by `n` words. -/
def schedule : Nat → List Nat → List Nat
  | 0, w => w
  | n + 1, w =>
      let i := w.length
      let w15 := w.getD (i - 15) 0
      let w2 := w.getD (i - 2) 0
      let s0 := rotr w15 7 ^^^ rotr w15 18 ^^^ (w15 >>> 3)
      let s1 := rotr w2 17 ^^^ rotr w2 19 ^^^ (w2 >>> 10)
      schedule n (w ++ [(w.getD (i - 16) 0 + s0 + w.getD (i - 7) 0 + s1) % 4294967296])

/-- One round of the compression function on the working variables
`a, b, c, d, e, f, g, h`, with round constant `kw.1` and schedule word `kw.2`. -/
def round (s : List Nat) (kw : Nat × Nat) : List Nat :=
  match s with
  | [a, b, c, d, e, f, g, h] =>
      let S1 := rotr e 6 ^^^ rotr e 11 ^^^ rotr e 25
      let ch := (e &&& f) ^^^ ((4294967295 - e) &&& g)
      let t1 := (h + S1 + ch + kw.1 + kw.2) % 4294967296
      let S0 := rotr a 2 ^^^ rotr a 13 ^^^ rotr a 22
      let mj := (a &&& b) ^^^ (a &&& c) ^^^ (b &&& c)
      let t2 := (S0 + mj) % 4294967296
      [(t1 + t2) % 4294967296, a, b, c, (d + t1) % 4294967296, e, f, g]
  | _ => s

/-- The compression of one 64-byte block into the hash value `h`. -/
def block (h : List Nat) (blk : List Nat) : List Nat :=
  let w := schedule 48 (beWords 16 blk)
  List.zipWith (fun x y => (x + y) % 4294967296) h ((K.zip w).foldl round h)

/-- The compression of the first `n` 64-byte blocks of `m`. -/
def blocks : Nat → List Nat → List Nat → List Nat
  | 0, h, _ => h
  | n + 1, h, m => blocks n (block h (m.take 64)) (m.drop 64)

/-- The eight 32-bit words of the SHA-256 hash of a byte sequence. -/
def digestWords (m : List Nat) : List Nat :=
  blocks ((pad m).length / 64) H0 (pad m)

/-- Go `sha256.Sum256(data)`: the 32 bytes of the SHA-256 hash. -/
def Sum256 (m : List Nat) : List Nat :=
  (digestWords m).flatMap fun w => [w >>> 24 % 256, w >>> 16 % 256, w >>> 8 % 256, w % 256]

end sha256

namespace hex

/-- The hexadecimal digit of a value below 16, as in Go `hextable`. -/
def digit (n : Nat) : Char := "0123456789abcdef".data.getD n '0'

/-- Go `hex.EncodeToString(src)`: two lowercase hexadecimal digits per byte. -/
def EncodeToString (src : List Nat) : String :=
  ⟨src.flatMap fun b => [digit (b / 16 % 16), digit (b % 16)]⟩

end hex

/-- The bytes of a Go string: `[]byte(s)`. -/
def bytesOf (s : String) : List Nat := s.data.map fun c => c.toNat % 256

/-! ## `urlHash` -/

/-- Source `urlHash`: the first 8 bytes of the SHA-256 hash of the URL, in
hexadecimal. -/
def urlHash (u : String) : String :=
  let h := sha256.Sum256 (bytesOf u)
  hex.EncodeToString (h.take 8)

/-! ## Go standard library: `net/url` -/

namespace url

/-- Go `stringContainsCTLByte`: some byte is below 0x20 or is 0x7f. -/
def containsCTL (s : List Char) : Bool := s.any fun c => c.toNat < 32 || c.toNat = 127

/-- Whether the byte is an ASCII letter. -/
def isAlpha (c : Char) : Bool := ('a' ≤ c && c ≤ 'z') || ('A' ≤ c && c ≤ 'Z')

/-- Whether the byte is an ASCII decimal digit. -/
def isDigit (c : Char) : Bool := '0' ≤ c && c ≤ '9'

/-- Go `ishex`. -/
def ishex (c : Char) : Bool :=
  ('0' ≤ c && c ≤ '9') || ('a' ≤ c && c ≤ 'f') || ('A' ≤ c && c ≤ 'F')

/-- Go `unhex`. -/
def unhex (c : Char) : Nat :=
  if '0' ≤ c ∧ c ≤ '9' then c.toNat - 48
  else if 'a' ≤ c ∧ c ≤ 'f' then c.toNat - 97 + 10
  else if 'A' ≤ c ∧ c ≤ 'F' then c.toNat - 65 + 10
  else 0

/-- The modes of Go `unescape` that `url.Parse` uses. -/
inductive encoding
  | encodePath
  | encodeHost
  | encodeZone
  | encodeUserPassword
  | encodeFragment
  deriving DecidableEq

/-- Go `shouldEscape(c, encodeHost)`: letters, digits, the sub-delimiters and
the bytes `: [ ] < > "` of a host, and the marks `- _ . ~` are not escaped. -/
def shouldEscapeHost (c : Char) : Bool :=
  !(isAlpha c || isDigit c || "!$&'()*+,;=:[]<>\"-_.~".data.contains c)

/-- Go `unescape(s, mode)`: `none` for an `EscapeError` or an
`InvalidHostError`, otherwise `s` with each `%XX` replaced by its byte. -/
def unescape (mode : encoding) : List Char → Option (List Char)
  | [] => some []
  | c :: cs =>
      if c = '%' then
        match cs with
        | h1 :: h2 :: rest =>
            if !(ishex h1 && ishex h2) then none
            else if mode = .encodeHost ∧ unhex h1 < 8 ∧ ¬(h1 = '2' ∧ h2 = '5') then none
            else if mode = .encodeZone ∧ ¬(h1 = '2' ∧ h2 = '5') ∧ unhex h1 * 16 + unhex h2 ≠ 32 ∧
                shouldEscapeHost (Char.ofNat (unhex h1 * 16 + unhex h2)) then none
            else (unescape mode rest).map fun t => Char.ofNat (unhex h1 * 16 + unhex h2) :: t
        | _ => none
      else if (mode = .encodeHost ∨ mode = .encodeZone) ∧ c.toNat < 128 ∧ shouldEscapeHost c then
        none
      else (unescape mode cs).map fun t => c :: t

/-- Go `getScheme`: `none` for the error "missing protocol scheme", otherwise
the scheme (maybe empty) and the rest of the URL.  `i` is the index of the
first byte of `s` in `rawURL`. -/
def getSchemeFrom (rawURL : List Char) : Nat → List Char → Option (List Char × List Char)
  | _, [] => some ([], rawURL)
  | i, c :: cs =>
      if isAlpha c then getSchemeFrom rawURL (i + 1) cs
      else if isDigit c || c = '+' || c = '-' || c = '.' then
        if i = 0 then some ([], rawURL) else getSchemeFrom rawURL (i + 1) cs
      else if c = ':' then
        if i = 0 then none else some (rawURL.take i, cs)
      else some ([], rawURL)

/-- Go `getScheme(rawURL)`. -/
def getScheme (rawURL : List Char) : Option (List Char × List Char) :=
  getSchemeFrom rawURL 0 rawURL

/-- Go `validOptionalPort`: empty, or a colon followed by decimal digits. -/
def validOptionalPort (port : List Char) : Bool :=
  match port with
  | [] => true
  | c :: cs => c = ':' && cs.all isDigit

/-- Go `validUserinfo`. -/
def validUserinfo (s : List Char) : Bool :=
  s.all fun c => isAlpha c || isDigit c || "-._:~!$&'()*+,;=%@".data.contains c

/-- Go `strings.Index(s, "%25")`: the index of the first `%25` in `s`, or
`none` when there is none. -/
def indexPercent25 : List Char → Option Nat
  | [] => none
  | c :: cs =>
      if "%25".data <+: c :: cs then some 0
      else (indexPercent25 cs).map fun k => k + 1

/-- Whether Go `parseHost(host)` returns without an error, as in Go 1.22.
Later releases reject more hosts (a bracketed host that is no IP literal, a
`[` inside a host, a second colon); `filenameFromURL` then returns `urlHash`
for such a URL. -/
def parseHostOk (host : List Char) : Bool :=
  match host with
  | '[' :: _ =>
      match strings.cutLastL ']' host with
      | none => false
      | some (inner, colonPort) =>
          validOptionalPort colonPort &&
          (match indexPercent25 inner with
           | some zone =>
               (unescape .encodeHost (inner.take zone)).isSome &&
               (unescape .encodeZone (inner.drop zone)).isSome &&
               (unescape .encodeHost (']' :: colonPort)).isSome
           | none => (unescape .encodeHost host).isSome)
  | _ =>
      (match strings.cutLastL ':' host with
       | some (_, port) => validOptionalPort (':' :: port)
       | none => true) &&
      (unescape .encodeHost host).isSome

/-- Whether Go `parseAuthority(authority)` returns without an error. -/
def parseAuthorityOk (authority : List Char) : Bool :=
  match strings.cutLastL '@' authority with
  | none => parseHostOk authority
  | some (userinfo, host) =>
      parseHostOk host && validUserinfo userinfo &&
      (match strings.cutL ':' userinfo with
       | none => (unescape .encodeUserPassword userinfo).isSome
       | some (username, password) =>
           (unescape .encodeUserPassword username).isSome &&
           (unescape .encodeUserPassword password).isSome)

/-- The part of a parsed `url.URL` that the program reads. -/
structure URL where
  Path : String
  deriving DecidableEq, Repr

/-- The rest of the URL without its query, as Go `parse` computes it: without
the final `?` when that is the only one, otherwise up to the first `?`. -/
def withoutQuery (rest : List Char) : List Char :=
  if rest.getLast? = some '?' ∧ rest.count '?' = 1 then rest.dropLast
  else match strings.cutL '?' rest with
    | some (b, _) => b
    | none => rest

/-- The part of Go `parse` after the scheme and the query were split off: the
decoded path, or `none` for an error.  A URL with a scheme and no leading
slash is opaque and has an empty path; an authority after `//` is checked and
left out of the path. -/
def parsePath (scheme rest : List Char) : Option (List Char) :=
  if rest.head? ≠ some '/' ∧ scheme ≠ [] then some []
  else if rest.head? ≠ some '/' ∧
      ':' ∈ (match strings.cutL '/' rest with
             | some (segment, _) => segment
             | none => rest) then none
  else if (scheme ≠ [] ∨ ¬ "///".data <+: rest) ∧ "//".data <+: rest then
    let authority := (rest.drop 2).takeWhile (· ≠ '/')
    let rest2 := (rest.drop 2).dropWhile (· ≠ '/')
    if parseAuthorityOk authority then unescape .encodePath rest2 else none
  else unescape .encodePath rest

/-- Go `parse(rawURL, false)`, after the fragment was cut off: the decoded
path of the URL, or `none` for an error. -/
def parse (rawURL : List Char) : Option (List Char) :=
  if containsCTL rawURL then none
  else if rawURL = ['*'] then some ['*']
  else
    match getScheme rawURL with
    | none => none
    | some (scheme, rest) => parsePath scheme (withoutQuery rest)

/-- Go `url.Parse(rawURL)`: cuts the fragment off, parses the rest and checks
the escapes of the fragment. -/
def Parse (rawURL : String) : Option URL :=
  match strings.cutL '#' rawURL.data with
  | none => (parse rawURL.data).map fun p => ⟨⟨p⟩⟩
  | some (u, frag) =>
      match parse u with
      | none => none
      | some p =>
          if frag = [] then some ⟨⟨p⟩⟩
          else if (unescape .encodeFragment frag).isSome then some ⟨⟨p⟩⟩ else none

end url

/-! ## Go standard library: `path/filepath` (Unix) -/

namespace filepath

/-- Go `filepath.Base` on bytes: the last element of the path, after trailing
slashes are removed; `.` for the empty path, `/` for a path of slashes. -/
def baseL (path : List Char) : List Char :=
  if path = [] then ['.']
  else
    let last := ((path.reverse.dropWhile (· = '/')).takeWhile (· ≠ '/')).reverse
    if last = [] then ['/'] else last

/-- Go `filepath.Base(path)`. -/
def Base (path : String) : String := ⟨baseL path.data⟩

/-- Go `filepath.Ext` on bytes: the suffix beginning at the last dot of the
last element of the path, empty when there is no dot. -/
def extL (path : List Char) : List Char :=
  let last := path.reverse.takeWhile (· ≠ '/')
  if '.' ∈ last then '.' :: (last.takeWhile (· ≠ '.')).reverse else []

/-- Go `filepath.Ext(path)`. -/
def Ext (path : String) : String := ⟨extL path.data⟩

/-- The elements of a path between its slashes. -/
def splitL : List Char → List (List Char)
  | [] => [[]]
  | c :: cs =>
      if c = '/' then [] :: splitL cs
      else match splitL cs with
        | e :: es => (c :: e) :: es
        | [] => [[c]]

/-- One element of the path processed by Go `Clean`; `out` holds the elements
written so far, last one first.  Empty and `.` elements are dropped; `..`
removes the last element written unless there is none or it is `..`, and is
then written itself unless the path is rooted; anything else is written. -/
def cleanStep (rooted : Bool) (out : List (List Char)) (e : List Char) : List (List Char) :=
  if e = [] ∨ e = ['.'] then out
  else if e = ['.', '.'] then
    match out with
    | top :: below => if top ≠ ['.', '.'] then below else if rooted then out else e :: out
    | [] => if rooted then out else [e]
  else e :: out

/-- The path that Go `Clean` returns for the elements `out` (last one first):
the elements joined with slashes, after a slash when the path is rooted; `.`
when nothing was written. -/
def renderL (rooted : Bool) (out : List (List Char)) : List Char :=
  if rooted then '/' :: ['/'].intercalate out.reverse
  else if out = [] then ['.'] else ['/'].intercalate out.reverse

/-- What `renderL` writes before the last element. -/
def lead (rooted : Bool) (out : List (List Char)) : List Char :=
  (if rooted then ['/'] else []) ++ (if out = [] then [] else ['/'].intercalate out.reverse ++ ['/'])

/-- Go `filepath.Clean` on bytes. -/
def cleanL (path : List Char) : List Char :=
  let rooted : Bool := path.head? = some '/'
  renderL rooted ((splitL path).foldl (cleanStep rooted) [])

/-- Go `filepath.Clean(path)`: the shortest path name equivalent to `path` by
purely lexical processing. -/
def Clean (path : String) : String := ⟨cleanL path.data⟩

/-- Go `filepath.Join(elem...)`: the elements from the first non-empty one on,
joined with slashes and cleaned; empty when all are empty. -/
def Join (elem : List String) : String :=
  match elem.dropWhile (· = "") with
  | [] => ""
  | e :: es => Clean ⟨['/'].intercalate ((e :: es).map String.data)⟩

end filepath

/-! ## `filenameFromURL` -/

/-- Source `filenameFromURL`: the last element of the path of the URL, or
`urlHash` of the URL when it does not parse or the element is unusable. -/
def filenameFromURL (rawURL : String) : String :=
  match url.Parse rawURL with
  | none => urlHash rawURL
  | some parsed =>
      let filename := filepath.Base parsed.Path
      if filename = "" ∨ filename = "." ∨ filename = "/" then urlHash rawURL
      else filename

/-! ## The file system and the functions of `os` -/

/-- The state of the disk.  Paths are compared as strings: two spellings of
the path of one file are outside the model. -/
structure FS where
  /-- The regular files and their contents. -/
  files : String → Option (List Nat)
  /-- The directories. -/
  dirs : String → Bool
  /-- The paths at which creating or opening a file for writing fails
  (permissions, a missing parent directory, a read-only disk). -/
  denied : String → Bool
  /-- The files that cannot be read (permissions). -/
  unreadable : String → Bool

namespace FS

/-- The disk after the file at `path` was given the content `data`. -/
def write (fs : FS) (path : String) (data : List Nat) : FS :=
  { fs with files := fun p => if p = path then some data else fs.files p }

/-- The disk after the file at `path` was removed. -/
def remove (fs : FS) (path : String) : FS :=
  { fs with files := fun p => if p = path then none else fs.files p }

end FS

namespace os

/-- Whether Go `os.Stat(name)` returns no error: a file or a directory is at
`name`. -/
def Stat (fs : FS) (name : String) : Bool := (fs.files name).isSome || fs.dirs name

/-- Go `os.Create(name)`: creates the file or truncates it; `none` for an
error. -/
def Create (fs : FS) (name : String) : Option FS :=
  if fs.dirs name || fs.denied name then none else some (fs.write name [])

/-- Go `os.Remove(name)` of a file. -/
def Remove (fs : FS) (name : String) : FS := fs.remove name

/-- The result of Go `os.ReadFile`. -/
inductive ReadResult
  | data (bytes : List Nat)
  | notExist
  | otherError
  deriving DecidableEq, Repr

/-- Go `os.ReadFile(name)`; `notExist` is an error for which `os.IsNotExist`
holds. -/
def ReadFile (fs : FS) (name : String) : ReadResult :=
  match fs.files name with
  | some bytes => if fs.unreadable name then .otherError else .data bytes
  | none => if fs.dirs name then .otherError else .notExist

/-- Go `os.WriteFile(name, data, 0644)`: replaces the content of the file,
creating it if needed; `none` for an error. -/
def WriteFile (fs : FS) (name : String) (data : List Nat) : Option FS :=
  if fs.dirs name || fs.denied name then none else some (fs.write name data)

/-- Go `os.MkdirAll(path, 0755)`, as far as the program observes it: no
error and no change when `path` is a directory, an error when it is a file or
cannot be created, otherwise `path` becomes a directory. -/
def MkdirAll (fs : FS) (path : String) : Option FS :=
  if fs.dirs path then some fs
  else if (fs.files path).isSome || fs.denied path then none
  else some { fs with dirs := fun p => p = path || fs.dirs p }

end os

/-! ## The network -/

namespace http

/-- The answer of the network to Go `http.Get(url)` and to the copy of the
body: an error of the transport, or a response with its status code and
body; `copyError` tells that `io.Copy` of the body ends with an error (the
read of the body or the write to the disk fails). -/
inductive Result
  | error
  | response (StatusCode : Nat) (Body : List Nat) (copyError : Bool)
  deriving DecidableEq, Repr

/-- Go `http.StatusOK`. -/
def StatusOK : Nat := 200

end http

/-! ## `downloadFile` -/

/-- The errors that `downloadFile` returns. -/
inductive DownloadError
  | get
  | badStatus (StatusCode : Nat)
  | create
  | copy
  deriving DecidableEq, Repr

/-- The path that `downloadFile` opens for writing: the resolved file name in
the output directory, or, when something exists there, the name with `_` and
`urlHash` of the URL before its extension. -/
def outputPathFor (fs : FS) (rawURL outputDir : String) : String :=
  let filename := filenameFromURL rawURL
  let outputPath := filepath.Join [outputDir, filename]
  if os.Stat fs outputPath then
    let ext := filepath.Ext filename
    let base := strings.TrimSuffix filename ext
    filepath.Join [outputDir, base ++ "_" ++ urlHash rawURL ++ ext]
  else outputPath

/-- Source `downloadFile`: the disk after the call, and the output path and
the number of bytes written, or the error. -/
def downloadFile (get : String → http.Result) (fs : FS) (rawURL outputDir : String) :
    FS × Except DownloadError (String × Int) :=
  match get rawURL with
  | .error => (fs, .error .get)
  | .response status body copyError =>
      if status ≠ http.StatusOK then (fs, .error (.badStatus status))
      else
        let outputPath := outputPathFor fs rawURL outputDir
        match os.Create fs outputPath with
        | none => (fs, .error .create)
        | some fs1 =>
            if copyError then (os.Remove fs1 outputPath, .error .copy)
            else (fs1.write outputPath body, .ok (outputPath, (body.length : Int)))

/-! ## The history -/

/-- A Go `map[string]V`: the list of its entries, each key once. -/
abbrev GoMap (V : Type) := List (String × V)

namespace GoMap

variable {V : Type}

/-- Go `v, exists := m[k]`. -/
def get (m : GoMap V) (k : String) : Option V :=
  match m with
  | [] => none
  | (k1, v1) :: rest => if k1 = k then some v1 else get rest k

/-- Go `m[k] = v`. -/
def set (m : GoMap V) (k : String) (v : V) : GoMap V :=
  match m with
  | [] => [(k, v)]
  | (k1, v1) :: rest => if k1 = k then (k, v) :: rest else (k1, v1) :: set rest k v

end GoMap

/-- Source `DownloadRecord`; `Downloaded` is the instant of the download. -/
structure DownloadRecord where
  URL : String
  Filename : String
  Downloaded : Nat
  Size : Int
  deriving DecidableEq, Repr

/-- Source `History`. -/
structure History where
  Downloads : GoMap DownloadRecord
  DownloadedFiles : GoMap String
  deriving DecidableEq, Repr

namespace json

/-- What Go `json.Unmarshal` leaves in the two fields of `History` after it
parsed a document: a map, or `none` for the nil map of a JSON `null`. -/
structure Document where
  downloads : Option (GoMap DownloadRecord)
  downloaded_files : Option (GoMap String)
  deriving DecidableEq, Repr

/-- Go `encoding/json` for the type `History`: `MarshalIndent` gives the bytes
of the document or `none` for an error, `Unmarshal` parses bytes or gives
`none` for an error. -/
structure Codec where
  MarshalIndent : History → Option (List Nat)
  Unmarshal : List Nat → Option Document

/-- The document holds the maps of the history: each key has the same value
in both.  Go maps have no order, so this is what "the same map" means. -/
def Document.Holds (doc : Document) (h : History) : Prop :=
  (∀ k, GoMap.get (doc.downloads.getD []) k = GoMap.get h.Downloads k) ∧
  (∀ k, GoMap.get (doc.downloaded_files.getD []) k = GoMap.get h.DownloadedFiles k)

/-- The codec reads back what it wrote for the history `h`. -/
def Codec.RoundTrips (J : Codec) (h : History) : Prop :=
  ∀ data, J.MarshalIndent h = some data →
    ∃ doc, J.Unmarshal data = some doc ∧ doc.Holds h

end json

/-- The migration loop of source `loadHistory`: for each URL of `downloads`,
`DownloadedFiles[filenameFromURL(u)] = u`. -/
def backfill (downloads : GoMap DownloadRecord) (files : GoMap String) : GoMap String :=
  downloads.foldl (fun df entry => GoMap.set df (filenameFromURL entry.1) entry.1) files

/-- Source `loadHistory`: the history and `needsSave`, or `none` for an
error. -/
def loadHistory (J : json.Codec) (fs : FS) (historyFile : String) : Option (History × Bool) :=
  match os.ReadFile fs historyFile with
  | .notExist => some (⟨[], []⟩, false)
  | .otherError => none
  | .data data =>
      match J.Unmarshal data with
      | none => none
      | some doc =>
          let downloads := doc.downloads.getD []
          let downloadedFiles := doc.downloaded_files.getD []
          if downloadedFiles.length = 0 ∧ downloads.length > 0 then
            some (⟨downloads, backfill downloads downloadedFiles⟩, true)
          else some (⟨downloads, downloadedFiles⟩, false)

/-- Source `saveHistory`: the disk after the call, or `none` for an error
(the disk is then unchanged). -/
def saveHistory (J : json.Codec) (fs : FS) (historyFile : String) (history : History) :
    Option FS :=
  match J.MarshalIndent history with
  | none => none
  | some data => os.WriteFile fs historyFile data

/-! ## The loop of `main` -/

/-- The calls of interest that the program makes. -/
inductive Call
  | downloadFile (rawURL outputDir : String)
  | saveHistory (historyFile : String)
  deriving DecidableEq, Repr

/-- How the loop of `main` ends for one URL. -/
inductive Outcome
  | dropped
  | skippedByURL (record : DownloadRecord)
  | skippedByFilename (filename : String)
  | failed (err : DownloadError)
  | succeeded (outputPath : String) (size : Int)
  deriving DecidableEq, Repr

/-- The flags of the command line and its arguments. -/
structure Flags where
  o : String
  history : String
  f : Bool
  list : Bool
  args : List String

/-- The history in memory and the disk. -/
structure State where
  history : History
  fs : FS

/-- What one pass of the loop gives: the state after it, how it ended, and
the calls it made, in order. -/
structure StepResult where
  state : State
  outcome : Outcome
  calls : List Call

/-- One pass of the loop `for _, rawURL := range urls` of source `main`. -/
def processURL (J : json.Codec) (flags : Flags) (get : String → http.Result) (now : Nat)
    (st : State) (rawURL0 : String) : StepResult :=
  let rawURL := strings.TrimSpace rawURL0
  if rawURL = "" then ⟨st, .dropped, []⟩
  else
    match GoMap.get st.history.Downloads rawURL, flags.f with
    | some record, false => ⟨st, .skippedByURL record, []⟩
    | _, _ =>
        let filename := filenameFromURL rawURL
        if (GoMap.get st.history.DownloadedFiles filename).isSome ∧ flags.f = false then
          ⟨st, .skippedByFilename filename, []⟩
        else
          match downloadFile get st.fs rawURL flags.o with
          | (fs1, .error err) => ⟨⟨st.history, fs1⟩, .failed err, [.downloadFile rawURL flags.o]⟩
          | (fs1, .ok (outputPath, size)) =>
              let history : History :=
                ⟨GoMap.set st.history.Downloads rawURL ⟨rawURL, outputPath, now, size⟩,
                 GoMap.set st.history.DownloadedFiles filename rawURL⟩
              let fs2 := (saveHistory J fs1 flags.history history).getD fs1
              ⟨⟨history, fs2⟩, .succeeded outputPath size,
                [.downloadFile rawURL flags.o, .saveHistory flags.history]⟩

/-- The loop of source `main` over the URLs; `now i` is what `time.Now()`
returns during the pass `i`.  Gives the final state and the result of each
pass. -/
def processURLs (J : json.Codec) (flags : Flags) (get : String → http.Result) (now : Nat → Nat) :
    Nat → State → List String → State × List StepResult
  | _, st, [] => (st, [])
  | i, st, rawURL :: rest =>
      let r := processURL J flags get (now i) st rawURL
      let (final, rs) := processURLs J flags get now (i + 1) r.state rest
      (final, r :: rs)

/-- The URLs that source `main` reads from the standard input, whose lines
(the bytes between the line ends) are `stdin`: `bufio.Scanner` yields the
lines up to the first one of 65536 bytes or more, at which `Scan` returns
false (`main` does not look at `scanner.Err()`); the loop trims each line and
stops at the first empty one. -/
def readURLs (stdin : List String) : List String :=
  ((stdin.takeWhile fun line => line.data.length < 65536).map strings.TrimSpace).takeWhile
    (· ≠ "")

/-- What a run of the program gives: the disk after it, the exit code, and
the calls it made, in order. -/
structure RunResult where
  fs : FS
  exitCode : Nat
  calls : List Call

namespace Downloader

/-- Source `main`. -/
def main (J : json.Codec) (flags : Flags) (stdin : List String) (get : String → http.Result)
    (now : Nat → Nat) (fs0 : FS) : RunResult :=
  match os.MkdirAll fs0 flags.o with
  | none => ⟨fs0, 1, []⟩
  | some fs1 =>
      match loadHistory J fs1 flags.history with
      | none => ⟨fs1, 1, []⟩
      | some (history, needsSave) =>
          let saved : FS × List Call :=
            if needsSave then
              ((saveHistory J fs1 flags.history history).getD fs1, [.saveHistory flags.history])
            else (fs1, [])
          if flags.list then ⟨saved.1, 0, saved.2⟩
          else
            let urls := if flags.args.length > 0 then flags.args else readURLs stdin
            if urls.length = 0 then ⟨saved.1, 1, saved.2⟩
            else
              let (final, rs) := processURLs J flags get now 0 ⟨history, saved.1⟩ urls
              ⟨final.fs, 0, saved.2 ++ rs.flatMap (·.calls)⟩

end Downloader

/-! ## A codec that reads back what it writes

The theorems hold for every `json.Codec`.  To evaluate the program on a
concrete disk a codec is needed; `json.reference` writes a history as the
base-256 digits of its code and reads it back.  It stands for
`encoding/json` in the examples; it does not produce JSON text. -/

namespace json

instance : Encodable Char := Encodable.ofLeftInverse Char.toNat Char.ofNat Char.ofNat_toNat

instance : Encodable String :=
  Encodable.ofEquiv (List Char) ⟨String.data, String.mk, fun _ => rfl, fun _ => rfl⟩

instance : Encodable DownloadRecord :=
  Encodable.ofEquiv (String × String × Nat × Int)
    ⟨fun r => (r.URL, r.Filename, r.Downloaded, r.Size), fun t => ⟨t.1, t.2.1, t.2.2.1, t.2.2.2⟩,
      fun _ => rfl, fun _ => rfl⟩

instance : Encodable History :=
  Encodable.ofEquiv (List (String × DownloadRecord) × List (String × String))
    ⟨fun h => (h.Downloads, h.DownloadedFiles), fun t => ⟨t.1, t.2⟩, fun _ => rfl, fun _ => rfl⟩

/-- The bytes that `reference` writes for a history: the base-256 digits of
its code. -/
@[irreducible]
def reference.bytes (h : History) : List Nat := Nat.digits 256 (Encodable.encode h)

/-- A codec that reads back what it writes. -/
@[irreducible]
def reference : Codec where
  MarshalIndent h := some (reference.bytes h)
  Unmarshal data :=
    (Encodable.decode (Nat.ofDigits 256 data) : Option History).map
      fun h => ⟨some h.Downloads, some h.DownloadedFiles⟩

end json


/-! ## Go standard library: `unicode/utf8` and what `encoding/json` does to strings

`encoding/json` writes a Go string as JSON text and reads it back.  Every
byte that does not begin a valid UTF-8 encoding is written as the escape `\ufffd`, so it
comes back as the three bytes of U+FFFD; every other byte comes back as it
was.  `json.standard` is the codec with this behaviour on the strings of a
history; the JSON text itself is represented by the code of the history that
it holds. -/

namespace utf8

end utf8

namespace json

end json
/-! ## Concrete disks, networks and histories -/

/-- A disk with the given directories and files, on which every path can be
written and every file can be read. -/
def diskWith (dirs : List String) (files : GoMap (List Nat)) : FS :=
  ⟨fun p => GoMap.get files p, fun p => dirs.contains p, fun _ => false, fun _ => false⟩

/-- A disk with no file, with the current directory and the directory `d`. -/
def emptyDisk : FS := diskWith [".", "d"] []

/-- A network that answers every request with status 200 and a body of
three bytes. -/
def okNet : String → http.Result := fun _ => .response 200 [1, 2, 3] false

/-- The flags `-o . -history .download_history.json` with no argument. -/
def defaultFlags : Flags := ⟨".", ".download_history.json", false, false, []⟩

/-- A history from before `downloaded_files` existed: one download, no file
name. -/
def legacyHistory : History :=
  ⟨[("https://x.test/a.zip", ⟨"https://x.test/a.zip", "a.zip", 1700000000, 3⟩)], []⟩

/-- A disk whose history file holds `legacyHistory`, written by the reference
codec. -/
def legacyDisk : FS := emptyDisk.write ".download_history.json" (json.reference.bytes legacyHistory)

/-- A disk on which both the plain and the suffixed output path of
`https://x.test/a.zip` in the directory `d` hold a file. -/
def occupiedDisk : FS :=
  diskWith [".", "d"] [("d/a.zip", [7]), ("d/a_3cb6523ff570b612.zip", [9])]

/-- A network whose body cannot be copied to the end. -/
def brokenNet : String → http.Result := fun _ => .response 200 [1, 2, 3] true

/-- The flags `-o new -f`. -/
def forceIntoNew : Flags := ⟨"new", ".download_history.json", true, false, []⟩

/-- The flags `-o d -f`. -/
def forceIntoD : Flags := ⟨"d", ".download_history.json", true, false, []⟩

/-- A state after `https://x.test/a.zip` was downloaded into the directory
`dir`: the history records it and the file is on the disk, which has the
directories `.`, `d`, `old` and `new`. -/
def downloadedInto (dir : String) : State :=
  ⟨⟨[("https://x.test/a.zip", ⟨"https://x.test/a.zip", dir ++ "/a.zip", 1700000000, 1⟩)],
     [("a.zip", "https://x.test/a.zip")]⟩,
   diskWith [".", "d", "old", "new"] [(dir ++ "/a.zip", [7])]⟩

/-- The flags `-list`. -/
def listFlags : Flags := ⟨".", ".download_history.json", false, true, []⟩

/-- A family of URLs with the file name `a.zip`: the query is `n` times the
letter `b`. -/
def queryURL (n : Nat) : String := ⟨"https://x.test/a.zip?".data ++ List.replicate n 'b'⟩

/-- A disk with the directories `.` and `d` and the file `d/a.zip`. -/
def diskWithPlain : FS := diskWith [".", "d"] [("d/a.zip", [7])]

namespace strings

theorem spaceEncodings_ne_nil : ∀ e ∈ spaceEncodings, e ≠ [] := by decide

theorem length_dropSpace (s rest : List Char) (h : dropSpace s = some rest) :
    rest.length < s.length := by
  unfold dropSpace at h
  cases hf : spaceEncodings.find? (fun e => e.isPrefixOf s) with
  | none => simp [hf] at h
  | some e =>
      simp only [hf, Option.map_some', Option.some.injEq] at h
      subst h
      have hpos : 0 < e.length :=
        List.length_pos.mpr (spaceEncodings_ne_nil e (List.mem_of_find?_eq_some hf))
      have hpre : e.isPrefixOf s = true :=
        @List.find?_some _ (fun e : List Char => e.isPrefixOf s) e _ hf
      have hle : e.length ≤ s.length := (List.isPrefixOf_iff_prefix.mp hpre).length_le
      rw [List.length_drop]
      omega

theorem length_dropSpaceRight (s rest : List Char) (h : dropSpaceRight s = some rest) :
    rest.length < s.length := by
  unfold dropSpaceRight at h
  cases hf : spaceEncodings.find? (fun e => e.reverse.isPrefixOf s.reverse) with
  | none => simp [hf] at h
  | some e =>
      simp only [hf, Option.map_some', Option.some.injEq] at h
      subst h
      have hpos : 0 < e.length :=
        List.length_pos.mpr (spaceEncodings_ne_nil e (List.mem_of_find?_eq_some hf))
      have hpre : e.reverse.isPrefixOf s.reverse = true :=
        @List.find?_some _ (fun e : List Char => e.reverse.isPrefixOf s.reverse) e _ hf
      have hle : e.length ≤ s.length := by
        have := (List.isPrefixOf_iff_prefix.mp hpre).length_le
        simpa using this
      rw [List.length_take]
      omega

/-- With fuel for every byte, `trimLeftL` stops only when no white space
leads. -/
theorem dropSpace_trimLeftL (fuel : Nat) (s : List Char) (h : s.length ≤ fuel) :
    dropSpace (trimLeftL fuel s) = none := by
  induction fuel generalizing s with
  | zero =>
      have hs : s = [] := List.length_eq_zero.mp (Nat.le_zero.mp h)
      subst hs
      decide
  | succ fuel ih =>
      unfold trimLeftL
      cases hd : dropSpace s with
      | none => exact hd
      | some rest =>
          have := length_dropSpace s rest hd
          exact ih rest (by omega)

/-- With fuel for every byte, `trimRightL` stops only when no white space
trails. -/
theorem dropSpaceRight_trimRightL (fuel : Nat) (s : List Char) (h : s.length ≤ fuel) :
    dropSpaceRight (trimRightL fuel s) = none := by
  induction fuel generalizing s with
  | zero =>
      have hs : s = [] := List.length_eq_zero.mp (Nat.le_zero.mp h)
      subst hs
      decide
  | succ fuel ih =>
      unfold trimRightL
      cases hd : dropSpaceRight s with
      | none => exact hd
      | some rest =>
          have := length_dropSpaceRight s rest hd
          exact ih rest (by omega)

end strings

/-! ## Lemmas on maps -/

namespace GoMap

variable {V : Type}

theorem get_set_same (m : GoMap V) (k : String) (v : V) : get (set m k v) k = some v := by
  induction m with
  | nil => simp [set, get]
  | cons e rest ih =>
      obtain ⟨k1, v1⟩ := e
      by_cases h : k1 = k
      · simp [set, get, h]
      · simp [set, get, h, ih]

theorem get_set_other (m : GoMap V) (k k2 : String) (v : V) (h : k2 ≠ k) :
    get (set m k v) k2 = get m k2 := by
  induction m with
  | nil => simp [set, get, Ne.symm h]
  | cons e rest ih =>
      obtain ⟨k1, v1⟩ := e
      by_cases h1 : k1 = k
      · subst h1
        simp [set, get, Ne.symm h]
      · by_cases h2 : k1 = k2
        · subst h2
          simp [set, get, h1]
        · simp [set, get, h1, h2, ih]

theorem get_isSome_iff_mem_keys (m : GoMap V) (k : String) :
    (get m k).isSome ↔ k ∈ m.map Prod.fst := by
  induction m with
  | nil => simp [get]
  | cons e rest ih =>
      obtain ⟨k1, v1⟩ := e
      by_cases h : k1 = k
      · simp [get, h]
      · simp only [get, h, if_false, ih, List.map_cons, List.mem_cons]
        constructor
        · intro hm
          exact Or.inr hm
        · rintro (hk | hm)
          · exact absurd hk.symm h
          · exact hm

end GoMap

/-! ## Lemmas on `urlHash` -/

namespace sha256

theorem length_round (s : List Nat) (kw : Nat × Nat) : (round s kw).length = s.length := by
  unfold round
  split <;> simp

theorem length_foldl_round (l : List (Nat × Nat)) (s : List Nat) :
    (l.foldl round s).length = s.length := by
  induction l generalizing s with
  | nil => rfl
  | cons kw rest ih => rw [List.foldl_cons, ih, length_round]

theorem length_block (h blk : List Nat) : (block h blk).length = h.length := by
  simp [block, length_foldl_round]

theorem length_blocks (n : Nat) (h m : List Nat) : (blocks n h m).length = h.length := by
  induction n generalizing h m with
  | zero => rfl
  | succ n ih => rw [blocks, ih, length_block]

theorem length_Sum256 (m : List Nat) : (Sum256 m).length = 32 := by
  have h8 : (digestWords m).length = 8 := by
    rw [digestWords, length_blocks]
    rfl
  have hbind : ∀ l : List Nat,
      (l.flatMap fun w => [w >>> 24 % 256, w >>> 16 % 256, w >>> 8 % 256, w % 256]).length
        = 4 * l.length := by
    intro l
    induction l with
    | nil => rfl
    | cons w rest ih => simp [List.flatMap_cons, ih]; omega
  rw [Sum256, hbind, h8]

end sha256

namespace hex

theorem digit_mem (n : Nat) (h : n < 16) : digit n ∈ "0123456789abcdef".data := by
  revert n
  decide

theorem length_EncodeToString (src : List Nat) : (EncodeToString src).length = 2 * src.length := by
  induction src with
  | nil => rfl
  | cons b rest ih =>
      simp only [EncodeToString, String.length, List.flatMap_cons, List.length_append,
        List.length_cons, List.length_nil] at ih ⊢
      omega

theorem mem_EncodeToString (src : List Nat) (c : Char) (h : c ∈ (EncodeToString src).data) :
    c ∈ "0123456789abcdef".data := by
  simp only [EncodeToString, List.mem_flatMap, List.mem_cons, List.mem_singleton] at h
  obtain ⟨b, _, hc⟩ := h
  simp only [List.not_mem_nil, or_false] at hc
  rcases hc with hc | hc
  · rw [hc]
    exact digit_mem _ (Nat.mod_lt _ (by norm_num))
  · rw [hc]
    exact digit_mem _ (Nat.mod_lt _ (by norm_num))

end hex

theorem length_urlHash (u : String) : (urlHash u).length = 16 := by
  simp [urlHash, hex.length_EncodeToString, sha256.length_Sum256]

theorem urlHash_ne_empty (u : String) : urlHash u ≠ "" := by
  intro h
  have := length_urlHash u
  rw [h] at this
  simp at this

/-! ## Lemmas on the reference codec -/

namespace json

theorem reference_MarshalIndent (h : History) :
    reference.MarshalIndent h = some (reference.bytes h) := by
  unfold reference
  rfl

theorem reference_Unmarshal (h : History) :
    reference.Unmarshal (reference.bytes h) = some ⟨some h.Downloads, some h.DownloadedFiles⟩ := by
  unfold reference reference.bytes
  simp [Nat.ofDigits_digits]

theorem reference_bytes_injective (h1 h2 : History) (h : reference.bytes h1 = reference.bytes h2) :
    h1 = h2 := by
  have := reference_Unmarshal h1
  rw [h, reference_Unmarshal] at this
  cases h1
  cases h2
  simp only [Option.some.injEq, Document.mk.injEq] at this
  simp [this.1, this.2]

theorem reference_RoundTrips (h : History) : reference.RoundTrips h := by
  intro data hd
  rw [reference_MarshalIndent] at hd
  cases hd
  exact ⟨_, reference_Unmarshal h, fun _ => rfl, fun _ => rfl⟩

theorem saveHistory_reference (fs : FS) (historyFile : String) (h : History) :
    saveHistory reference fs historyFile h = os.WriteFile fs historyFile (reference.bytes h) := by
  unfold saveHistory
  rw [reference_MarshalIndent]

theorem loadHistory_reference (fs : FS) (historyFile : String) (h : History)
    (hread : os.ReadFile fs historyFile = .data (reference.bytes h)) :
    loadHistory reference fs historyFile =
      if h.DownloadedFiles.length = 0 ∧ h.Downloads.length > 0 then
        some (⟨h.Downloads, backfill h.Downloads h.DownloadedFiles⟩, true)
      else some (⟨h.Downloads, h.DownloadedFiles⟩, false) := by
  unfold loadHistory
  rw [hread]
  simp only
  rw [reference_Unmarshal]
  rfl

end json

/-! ## Lemmas on the migration -/

theorem GoMap.get_set_isSome {V : Type} (m : GoMap V) (k k2 : String) (v : V)
    (h : (GoMap.get m k2).isSome) : (GoMap.get (GoMap.set m k v) k2).isSome := by
  by_cases hk : k2 = k
  · subst hk
    simp [GoMap.get_set_same]
  · rw [GoMap.get_set_other _ _ _ _ hk]
    exact h

/-- Every entry that the migration writes maps a file name to a URL of
`downloads` with that file name, and every URL of `downloads` gets one. -/
theorem backfill_spec (S : String → Prop) (downloads : GoMap DownloadRecord)
    (files : GoMap String) (hS : ∀ e ∈ downloads, S e.1)
    (hinv : ∀ f u, GoMap.get files f = some u → S u ∧ filenameFromURL u = f) :
    (∀ f u, GoMap.get (backfill downloads files) f = some u → S u ∧ filenameFromURL u = f) ∧
    (∀ f, (GoMap.get files f).isSome → (GoMap.get (backfill downloads files) f).isSome) ∧
    (∀ e ∈ downloads, (GoMap.get (backfill downloads files) (filenameFromURL e.1)).isSome) := by
  induction downloads generalizing files with
  | nil => exact ⟨hinv, fun _ h => h, fun e he => absurd he (List.not_mem_nil e)⟩
  | cons e rest ih =>
      have hinv1 : ∀ f u, GoMap.get (GoMap.set files (filenameFromURL e.1) e.1) f = some u →
          S u ∧ filenameFromURL u = f := by
        intro f u hget
        by_cases hf : f = filenameFromURL e.1
        · subst hf
          rw [GoMap.get_set_same] at hget
          cases hget
          exact ⟨hS e (List.mem_cons_self _ _), rfl⟩
        · rw [GoMap.get_set_other _ _ _ _ hf] at hget
          exact hinv f u hget
      obtain ⟨h1, h2, h3⟩ := ih (GoMap.set files (filenameFromURL e.1) e.1)
        (fun e1 he1 => hS e1 (List.mem_cons_of_mem _ he1)) hinv1
      refine ⟨h1, fun f hf => h2 f (GoMap.get_set_isSome _ _ _ _ hf), ?_⟩
      intro e1 he1
      rcases List.mem_cons.mp he1 with heq | hmem
      · subst heq
        exact h2 _ (by simp [GoMap.get_set_same])
      · exact h3 e1 hmem

theorem GoMap.mem_of_get_isSome {V : Type} (m : GoMap V) (k : String)
    (h : (GoMap.get m k).isSome) : ∃ e ∈ m, e.1 = k := by
  induction m with
  | nil => simp [GoMap.get] at h
  | cons e rest ih =>
      obtain ⟨k1, v1⟩ := e
      by_cases hk : k1 = k
      · exact ⟨(k1, v1), List.mem_cons_self _ _, hk⟩
      · simp only [GoMap.get, hk, if_false] at h
        obtain ⟨e1, he1, hk1⟩ := ih h
        exact ⟨e1, List.mem_cons_of_mem _ he1, hk1⟩

theorem GoMap.get_isSome_of_mem {V : Type} (m : GoMap V) (e : String × V) (h : e ∈ m) :
    (GoMap.get m e.1).isSome := by
  induction m with
  | nil => exact absurd h (List.not_mem_nil e)
  | cons e1 rest ih =>
      obtain ⟨k1, v1⟩ := e1
      by_cases hk : k1 = e.1
      · simp [GoMap.get, hk]
      · simp only [GoMap.get, hk, if_false]
        rcases List.mem_cons.mp h with heq | hmem
        · subst heq
          exact absurd rfl hk
        · exact ih hmem

/-- The migration of a legacy history: no file name is lost, every URL of
`downloads` has its file name as a key, and each key is mapped to a URL of
`downloads` with that file name. -/
theorem backfill_legacy (downloads : GoMap DownloadRecord) :
    (∀ f u, GoMap.get (backfill downloads []) f = some u →
      (GoMap.get downloads u).isSome ∧ filenameFromURL u = f) ∧
    (∀ u, (GoMap.get downloads u).isSome →
      (GoMap.get (backfill downloads []) (filenameFromURL u)).isSome) := by
  obtain ⟨h1, _, h3⟩ := backfill_spec (fun u => (GoMap.get downloads u).isSome) downloads []
    (fun e he => GoMap.get_isSome_of_mem downloads e he)
    (fun f u h => by simp [GoMap.get] at h)
  refine ⟨h1, fun u hu => ?_⟩
  obtain ⟨e, he, hk⟩ := GoMap.mem_of_get_isSome downloads u hu
  rw [← hk]
  exact h3 e he

/-! ## Lemmas on the disk -/

theorem FS.write_write (fs : FS) (path : String) (a b : List Nat) :
    (fs.write path a).write path b = fs.write path b := by
  simp only [FS.write, FS.mk.injEq, and_true]
  funext p
  by_cases hp : p = path <;> simp [hp]

theorem os.Create_some (fs fs1 : FS) (name : String) (h : os.Create fs name = some fs1) :
    fs1 = fs.write name [] := by
  unfold os.Create at h
  split at h
  · cases h
  · cases h
    rfl

theorem saveHistory_files_other (J : json.Codec) (fs : FS) (historyFile : String)
    (history : History) (p : String) (hp : p ≠ historyFile) :
    ((saveHistory J fs historyFile history).getD fs).files p = fs.files p := by
  unfold saveHistory
  cases J.MarshalIndent history with
  | none => rfl
  | some data =>
      simp only [os.WriteFile]
      split
      · rfl
      · simp [FS.write, hp]

/-- A download changes no file but the one at its output path. -/
theorem downloadFile_files_other (get : String → http.Result) (fs : FS)
    (rawURL outputDir p : String) (hp : p ≠ outputPathFor fs rawURL outputDir) :
    (downloadFile get fs rawURL outputDir).1.files p = fs.files p := by
  unfold downloadFile
  cases get rawURL with
  | error => rfl
  | response status body copyError =>
      simp only
      split
      · rfl
      · cases hc : os.Create fs (outputPathFor fs rawURL outputDir) with
        | none => rfl
        | some fs1 =>
            rw [os.Create_some fs fs1 _ hc]
            cases copyError <;> simp [FS.write, FS.remove, os.Remove, hp]

/-- A successful download returns the output path and the length of the
body, and leaves the body at the output path. -/
theorem downloadFile_ok (get : String → http.Result) (fs fs1 : FS)
    (rawURL outputDir outputPath : String) (size : Int)
    (h : downloadFile get fs rawURL outputDir = (fs1, .ok (outputPath, size))) :
    outputPath = outputPathFor fs rawURL outputDir ∧
    ∃ body, get rawURL = .response 200 body false ∧ size = (body.length : Int) ∧
      fs1 = fs.write outputPath body := by
  unfold downloadFile at h
  cases hg : get rawURL with
  | error => simp [hg] at h
  | response status body copyError =>
      simp only [hg] at h
      split at h
      · simp at h
      · rename_i hs
        cases hc : os.Create fs (outputPathFor fs rawURL outputDir) with
        | none => simp [hc] at h
        | some fs0 =>
            rw [os.Create_some fs fs0 _ hc] at hc
            simp only [hc] at h
            cases copyError with
            | true => simp at h
            | false =>
                simp only [Bool.false_eq_true, if_false, Prod.mk.injEq, Except.ok.injEq] at h
                obtain ⟨hfs, hp, hsz⟩ := h
                have hs200 : status = 200 := by
                  simpa [http.StatusOK] using hs
                subst hs200
                refine ⟨hp.symm, body, rfl, hsz.symm, ?_⟩
                rw [← hfs, ← hp, FS.write_write]

/-- A run in list mode on a history that needs the migration saves the
migrated history and stops. -/
theorem Downloader.main_list_migrating (J : json.Codec) (flags : Flags) (stdin : List String)
    (get : String → http.Result) (now : Nat → Nat) (fs fs1 : FS) (history : History)
    (hlist : flags.list = true) (hmk : os.MkdirAll fs flags.o = some fs1)
    (hload : loadHistory J fs1 flags.history = some (history, true)) :
    Downloader.main J flags stdin get now fs
      = ⟨(saveHistory J fs1 flags.history history).getD fs1, 0, [.saveHistory flags.history]⟩ := by
  unfold Downloader.main
  rw [hmk]
  simp only
  rw [hload]
  simp only [hlist, if_true]


/-! ## Lemmas on paths -/

namespace filepath

theorem splitL_ne_nil (p : List Char) : splitL p ≠ [] := by
  cases p with
  | nil => simp [splitL]
  | cons c cs =>
      unfold splitL
      split
      · simp
      · split <;> simp

theorem splitL_of_no_slash (n : List Char) (h : '/' ∉ n) : splitL n = [n] := by
  induction n with
  | nil => rfl
  | cons c cs ih =>
      have hc : c ≠ '/' := fun e => h (e ▸ List.mem_cons_self _ _)
      have hcs : '/' ∉ cs := fun e => h (List.mem_cons_of_mem _ e)
      simp [splitL, hc, ih hcs]

theorem splitL_append (d n : List Char) (h : '/' ∉ n) :
    splitL (d ++ '/' :: n) = splitL d ++ [n] := by
  induction d with
  | nil => simp [splitL, splitL_of_no_slash n h]
  | cons c cs ih =>
      by_cases hc : c = '/'
      · simp [splitL, hc, ih]
      · obtain ⟨e, es, hes⟩ := List.exists_cons_of_ne_nil (splitL_ne_nil cs)
        simp [splitL, hc, ih, hes]

theorem intercalate_concat (xs : List (List Char)) (n : List Char) (h : xs ≠ []) :
    ['/'].intercalate (xs ++ [n]) = ['/'].intercalate xs ++ '/' :: n := by
  induction xs with
  | nil => exact absurd rfl h
  | cons x rest ih =>
      cases rest with
      | nil => simp [List.intercalate]
      | cons y ys =>
          have := ih (by simp)
          simp only [List.intercalate, List.cons_append, List.intersperse_cons₂, List.flatten_cons,
            List.append_assoc] at this ⊢
          rw [this]

theorem intercalate_reverse_cons (n top : List Char) (below : List (List Char)) :
    ['/'].intercalate (n :: top :: below).reverse
      = ['/'].intercalate (top :: below).reverse ++ '/' :: n := by
  rw [List.reverse_cons n, intercalate_concat _ n (by simp)]

theorem renderL_cons (rooted : Bool) (out : List (List Char)) (n : List Char) :
    renderL rooted (n :: out) = lead rooted out ++ n := by
  cases out with
  | nil => cases rooted <;> simp [renderL, lead, List.intercalate]
  | cons top below =>
      unfold renderL lead
      rw [intercalate_reverse_cons]
      cases rooted <;> simp

theorem length_renderL_le (rooted : Bool) (out : List (List Char)) :
    (renderL rooted out).length ≤ (lead rooted out).length + 1 := by
  cases out with
  | nil => cases rooted <;> simp [renderL, lead, List.intercalate]
  | cons top below =>
      unfold renderL lead
      cases rooted
      · simp only [Bool.false_eq_true, if_false, List.cons_ne_nil, List.nil_append,
          List.length_append, List.length_singleton]
        omega
      · simp

theorem length_renderL_tail_le (rooted : Bool) (top : List Char) (below : List (List Char)) :
    (renderL rooted below).length ≤ (lead rooted (top :: below)).length + 1 := by
  cases below with
  | nil => cases rooted <;> simp [renderL, lead, List.intercalate]
  | cons b bs =>
      unfold renderL lead
      rw [intercalate_reverse_cons]
      cases rooted <;> simp <;> omega

theorem cleanStep_normal (rooted : Bool) (out : List (List Char)) (n : List Char)
    (h1 : n ≠ []) (h2 : n ≠ ['.']) (h3 : n ≠ ['.', '.']) : cleanStep rooted out n = n :: out := by
  simp [cleanStep, h1, h2, h3]

theorem length_renderL_cleanStep_le (rooted : Bool) (out : List (List Char)) (n : List Char) :
    (renderL rooted (cleanStep rooted out n)).length ≤ (lead rooted out).length + n.length + 2 := by
  unfold cleanStep
  split
  · have := length_renderL_le rooted out
    omega
  · split
    · rename_i hdd
      split
      · rename_i top below
        split
        · have := length_renderL_tail_le rooted top below
          omega
        · split
          · have := length_renderL_le rooted (top :: below)
            omega
          · rw [renderL_cons]
            simp
      · split
        · have := length_renderL_le rooted []
          omega
        · rw [renderL_cons]
          simp
    · rw [renderL_cons]
      simp

end filepath

namespace filepath

theorem Join_two_data (dir n : String) (hn : n ≠ "") :
    (Join [dir, n]).data = cleanL (if dir = "" then n.data else dir.data ++ '/' :: n.data) := by
  unfold Join
  by_cases hd : dir = ""
  · simp [hd, hn, List.dropWhile, Clean, List.intercalate]
  · simp [hd, List.dropWhile, Clean, List.intercalate]

theorem cleanL_join (dir : String) :
    ∃ (rooted : Bool) (out : List (List Char)),
      ∀ m : List Char, '/' ∉ m →
        cleanL (if dir = "" then m else dir.data ++ '/' :: m)
          = renderL rooted (cleanStep rooted out m) := by
  by_cases hd : dir = ""
  · refine ⟨false, [], fun m hm => ?_⟩
    have hroot : (m.head? = some '/') = False := by
      cases m with
      | nil => simp
      | cons c cs =>
          have hc : c ≠ '/' := fun e => hm (e ▸ List.mem_cons_self _ _)
          simp [hc]
    simp only [hd, if_true, cleanL, splitL_of_no_slash m hm, List.foldl_cons, List.foldl_nil,
      hroot, decide_False]
  · have hne : dir.data ≠ [] := by
      intro h
      apply hd
      exact String.ext h
    refine ⟨decide (dir.data.head? = some '/'),
      (splitL dir.data).foldl (cleanStep (decide (dir.data.head? = some '/'))) [], fun m hm => ?_⟩
    have hhead : (dir.data ++ '/' :: m).head? = dir.data.head? := by
      cases hdd : dir.data with
      | nil => exact absurd hdd hne
      | cons c cs => rfl
    simp only [hd, if_false, cleanL, splitL_append dir.data m hm, List.foldl_append,
      List.foldl_cons, List.foldl_nil, hhead]

/-- The output path of an ordinary name is a text that depends on the
directory only, followed by the name; the output path of any name without a
slash is at most two bytes longer than that text and the name. -/
theorem Join_spec (dir : String) :
    ∃ Q : List Char,
      (∀ n : String, '/' ∉ n.data → n.data ≠ [] → n.data ≠ ['.'] → n.data ≠ ['.', '.'] →
        (Join [dir, n]).data = Q ++ n.data) ∧
      (∀ f : String, '/' ∉ f.data → f ≠ "" →
        (Join [dir, f]).data.length ≤ Q.length + f.data.length + 2) := by
  obtain ⟨rooted, out, hclean⟩ := cleanL_join dir
  refine ⟨lead rooted out, fun n hs h1 h2 h3 => ?_, fun f hs hf => ?_⟩
  · have hn : n ≠ "" := by
      intro h
      apply h1
      rw [h]
    rw [Join_two_data dir n hn, hclean n.data hs, cleanStep_normal rooted out n.data h1 h2 h3,
      renderL_cons]
  · rw [Join_two_data dir f hf, hclean f.data hs]
    exact length_renderL_cleanStep_le rooted out f.data

theorem extL_suffix (p : List Char) : extL p <:+ p := by
  unfold extL
  simp only
  split
  · rename_i hdot
    have h1 := List.takeWhile_append_dropWhile (fun c => decide (c ≠ '/')) p.reverse
    have h2 := List.takeWhile_append_dropWhile (fun c => decide (c ≠ '.'))
      (p.reverse.takeWhile fun c => decide (c ≠ '/'))
    generalize hl : (p.reverse.takeWhile fun c => decide (c ≠ '/')) = last at h1 h2 hdot
    have hd : ∃ r, last.dropWhile (fun c => decide (c ≠ '.')) = '.' :: r := by
      clear h1 h2 hl
      induction last with
      | nil => simp at hdot
      | cons c cs ih =>
          by_cases hc : c = '.'
          · exact ⟨cs, by rw [List.dropWhile_cons_of_neg (by simp [hc])]; rw [hc]⟩
          · have : '.' ∈ cs := by
              rcases List.mem_cons.mp hdot with h | h
              · exact absurd h.symm hc
              · exact h
            obtain ⟨r, hr⟩ := ih this
            exact ⟨r, by rw [List.dropWhile_cons_of_pos (by simp [hc])]; exact hr⟩
    obtain ⟨r, hr⟩ := hd
    rw [hr] at h2
    refine ⟨(p.reverse.dropWhile fun c => decide (c ≠ '/')).reverse ++ r.reverse, ?_⟩
    have hp : p = (last ++ p.reverse.dropWhile fun c => decide (c ≠ '/')).reverse := by
      rw [h1, List.reverse_reverse]
    conv_rhs => rw [hp, ← h2]
    simp
  · exact List.nil_suffix

theorem mem_extL (p : List Char) (c : Char) (h : c ∈ extL p) : c ∈ p :=
  (extL_suffix p).subset h

theorem not_slash_of_mem_baseL (p : List Char) (h : baseL p ≠ ['/']) : '/' ∉ baseL p := by
  unfold baseL at h ⊢
  by_cases hp : p = []
  · simp [hp]
  · simp only [hp, if_false] at h ⊢
    generalize hl : ((p.reverse.dropWhile fun c => decide (c = '/')).takeWhile
      fun c => decide (c ≠ '/')) = last at h ⊢
    by_cases hlast : last.reverse = []
    · simp [hlast] at h
    · simp only [hlast, if_false]
      intro hm
      rw [List.mem_reverse, ← hl] at hm
      have := List.mem_takeWhile_imp hm
      simp at this

end filepath

theorem strings.TrimSuffix_Ext (f : String) :
    (strings.TrimSuffix f (filepath.Ext f)).data ++ (filepath.Ext f).data = f.data := by
  have hs := filepath.extL_suffix f.data
  unfold strings.TrimSuffix filepath.Ext
  simp only [hs, if_true]
  obtain ⟨t, ht⟩ := hs
  have hlen : f.data.length - (filepath.extL f.data).length = t.length := by
    have := congrArg List.length ht
    rw [List.length_append] at this
    omega
  have htake : List.take t.length f.data = t := by
    conv_lhs => rw [← ht]
    simp
  rw [hlen, htake, ht]

theorem not_mem_slash_urlHash (u : String) : '/' ∉ (urlHash u).data := by
  intro h
  have := hex.mem_EncodeToString _ _ h
  revert this
  decide

theorem not_mem_slash_filenameFromURL (u : String) : '/' ∉ (filenameFromURL u).data := by
  unfold filenameFromURL
  cases url.Parse u with
  | none => exact not_mem_slash_urlHash u
  | some parsed =>
      simp only
      split
      · exact not_mem_slash_urlHash u
      · rename_i h
        apply filepath.not_slash_of_mem_baseL
        intro hb
        apply h
        right
        right
        exact String.ext hb

/-! ## Lemmas on the output path -/

theorem filenameFromURL_ne_empty (u : String) : filenameFromURL u ≠ "" := by
  unfold filenameFromURL
  cases url.Parse u with
  | none => exact urlHash_ne_empty u
  | some parsed =>
      simp only
      split
      · exact urlHash_ne_empty u
      · rename_i h
        intro h0
        exact h (Or.inl h0)

theorem suffixed_data (u : String) :
    (strings.TrimSuffix (filenameFromURL u) (filepath.Ext (filenameFromURL u)) ++ "_" ++
        urlHash u ++ filepath.Ext (filenameFromURL u)).data
      = (strings.TrimSuffix (filenameFromURL u) (filepath.Ext (filenameFromURL u))).data ++
          '_' :: ((urlHash u).data ++ (filepath.Ext (filenameFromURL u)).data) := by
  simp [String.data_append]

theorem suffixed_length (u : String) :
    (strings.TrimSuffix (filenameFromURL u) (filepath.Ext (filenameFromURL u)) ++ "_" ++
        urlHash u ++ filepath.Ext (filenameFromURL u)).data.length
      = (filenameFromURL u).data.length + 17 := by
  have h1 := congrArg List.length (strings.TrimSuffix_Ext (filenameFromURL u))
  have h2 : (urlHash u).data.length = 16 := length_urlHash u
  rw [List.length_append] at h1
  rw [suffixed_data]
  simp only [List.length_append, List.length_cons]
  omega

theorem suffixed_no_slash (u : String) :
    '/' ∉ (strings.TrimSuffix (filenameFromURL u) (filepath.Ext (filenameFromURL u)) ++ "_" ++
        urlHash u ++ filepath.Ext (filenameFromURL u)).data := by
  have hf := not_mem_slash_filenameFromURL u
  have hsplit := strings.TrimSuffix_Ext (filenameFromURL u)
  rw [suffixed_data]
  intro hm
  rcases List.mem_append.mp hm with h | h
  · apply hf
    rw [← hsplit]
    exact List.mem_append_left _ h
  · rcases List.mem_cons.mp h with h | h
    · revert h
      decide
    · rcases List.mem_append.mp h with h | h
      · exact not_mem_slash_urlHash u h
      · apply hf
        rw [← hsplit]
        exact List.mem_append_right _ h

/-- The plain and the suffixed output path of a URL differ. -/
theorem plain_ne_suffixed (dir u : String) :
    filepath.Join [dir, filenameFromURL u] ≠
      filepath.Join [dir, strings.TrimSuffix (filenameFromURL u)
        (filepath.Ext (filenameFromURL u)) ++ "_" ++ urlHash u ++
          filepath.Ext (filenameFromURL u)] := by
  obtain ⟨Q, hnormal, hbound⟩ := filepath.Join_spec dir
  have hlen := suffixed_length u
  have h1 := hbound (filenameFromURL u) (not_mem_slash_filenameFromURL u)
    (filenameFromURL_ne_empty u)
  have h2 := hnormal _ (suffixed_no_slash u)
    (by intro h; rw [h] at hlen; simp at hlen)
    (by intro h; rw [h] at hlen; simp at hlen)
    (by intro h; rw [h] at hlen; simp at hlen)
  intro heq
  rw [heq, h2, List.length_append, hlen] at h1
  omega

/-- The suffixed output paths of two URLs with one file name are equal only
when their hashes are. -/
theorem suffixed_injective (dir u1 u2 : String) (hname : filenameFromURL u1 = filenameFromURL u2)
    (heq : filepath.Join [dir, strings.TrimSuffix (filenameFromURL u1)
        (filepath.Ext (filenameFromURL u1)) ++ "_" ++ urlHash u1 ++
          filepath.Ext (filenameFromURL u1)]
      = filepath.Join [dir, strings.TrimSuffix (filenameFromURL u2)
        (filepath.Ext (filenameFromURL u2)) ++ "_" ++ urlHash u2 ++
          filepath.Ext (filenameFromURL u2)]) :
    urlHash u1 = urlHash u2 := by
  obtain ⟨Q, hnormal, _⟩ := filepath.Join_spec dir
  have hlen1 := suffixed_length u1
  have hlen2 := suffixed_length u2
  have h1 := hnormal _ (suffixed_no_slash u1)
    (by intro h; rw [h] at hlen1; simp at hlen1)
    (by intro h; rw [h] at hlen1; simp at hlen1)
    (by intro h; rw [h] at hlen1; simp at hlen1)
  have h2 := hnormal _ (suffixed_no_slash u2)
    (by intro h; rw [h] at hlen2; simp at hlen2)
    (by intro h; rw [h] at hlen2; simp at hlen2)
    (by intro h; rw [h] at hlen2; simp at hlen2)
  rw [heq, h2, suffixed_data, suffixed_data, hname] at h1
  have h3 := List.append_cancel_left (List.append_cancel_left h1)
  have h4 := List.append_cancel_right (List.cons.inj h3).2
  exact String.ext h4.symm

theorem os.Stat_write (fs : FS) (path p : String) (data : List Nat)
    (h : os.Stat fs p = true ∨ p = path) : os.Stat (fs.write path data) p = true := by
  unfold os.Stat FS.write at *
  by_cases hp : p = path
  · simp [hp]
  · rcases h with h | h
    · simpa [hp] using h
    · exact absurd h hp

theorem Except.eq_ok_of_toOption {ε α : Type} {e : Except ε α} {a : α}
    (h : e.toOption = some a) : e = .ok a := by
  cases e with
  | error err => simp [Except.toOption] at h
  | ok b =>
      simp only [Except.toOption, Option.some.injEq] at h
      rw [h]

/-! ## Distinct URLs with one file name and one hash -/

theorem strings.cutL_eq_none (sep : Char) (l : List Char) (h : sep ∉ l) :
    strings.cutL sep l = none := by
  induction l with
  | nil => rfl
  | cons c cs ih =>
      have hc : c ≠ sep := fun e => h (e ▸ List.mem_cons_self _ _)
      have hcs : sep ∉ cs := fun e => h (List.mem_cons_of_mem _ e)
      simp [strings.cutL, hc, ih hcs]

theorem url.withoutQuery_query (n : Nat) :
    url.withoutQuery ("//x.test/a.zip?".data ++ List.replicate n 'b') = "//x.test/a.zip".data := by
  cases n with
  | zero => decide
  | succ k =>
      have hlast : ("//x.test/a.zip?".data ++ List.replicate (k + 1) 'b').getLast? = some 'b' := by
        rw [List.replicate_succ', ← List.append_assoc, List.getLast?_concat]
      unfold url.withoutQuery
      rw [hlast]
      simp only [Option.some.injEq, show ('b' = '?') = False by decide, false_and, if_false]
      rfl

theorem url.parse_queryURL (n : Nat) :
    url.parse (queryURL n).data = some "/a.zip".data := by
  have hctl : url.containsCTL (queryURL n).data = false := by
    simp only [url.containsCTL, queryURL, List.any_append, Bool.or_eq_false_iff]
    refine ⟨by decide, ?_⟩
    rw [List.any_eq_false]
    intro c hc
    rw [List.eq_of_mem_replicate hc]
    decide
  have hstar : (queryURL n).data ≠ ['*'] := by
    simp [queryURL]
  have hscheme : url.getScheme (queryURL n).data
      = some ("https".data, "//x.test/a.zip?".data ++ List.replicate n 'b') := rfl
  unfold url.parse
  rw [hctl, if_neg hstar, hscheme]
  simp only [Bool.false_eq_true, if_false]
  rw [url.withoutQuery_query]
  decide

theorem url.Parse_queryURL (n : Nat) : url.Parse (queryURL n) = some ⟨"/a.zip"⟩ := by
  have hcut : strings.cutL '#' (queryURL n).data = none := by
    apply strings.cutL_eq_none
    simp only [queryURL, List.mem_append, not_or]
    refine ⟨by decide, ?_⟩
    intro h
    have := List.eq_of_mem_replicate h
    revert this
    decide
  unfold url.Parse
  rw [hcut]
  simp only [url.parse_queryURL]
  rfl

theorem filenameFromURL_queryURL (n : Nat) : filenameFromURL (queryURL n) = "a.zip" := by
  unfold filenameFromURL
  rw [url.Parse_queryURL]
  simp only
  rw [if_neg (by decide)]
  decide

theorem queryURL_injective (n m : Nat) (h : queryURL n = queryURL m) : n = m := by
  have := congrArg (fun s : String => s.data.length) h
  simpa [queryURL] using this

theorem sha256.Sum256_lt (m : List Nat) (b : Nat) (h : b ∈ sha256.Sum256 m) : b < 256 := by
  simp only [sha256.Sum256, List.mem_flatMap, List.mem_cons, List.mem_singleton,
    List.not_mem_nil, or_false] at h
  obtain ⟨w, _, hb⟩ := h
  rcases hb with hb | hb | hb | hb <;> (rw [hb]; exact Nat.mod_lt _ (by norm_num))

/-- Among the first `2 ^ 64 + 1` URLs of the family two have the same
`urlHash`, which has only `2 ^ 64` values. -/
theorem exists_urlHash_collision :
    ∃ n m : Nat, n ≠ m ∧ urlHash (queryURL n) = urlHash (queryURL m) := by
  let F : Fin (2 ^ 64 + 1) → (Fin 8 → Fin 256) := fun n i =>
    ⟨((sha256.Sum256 (bytesOf (queryURL n))).take 8).getD i 0 % 256, Nat.mod_lt _ (by norm_num)⟩
  have hcard : Fintype.card (Fin 8 → Fin 256) < Fintype.card (Fin (2 ^ 64 + 1)) := by
    simp only [Fintype.card_fun, Fintype.card_fin]
    norm_num
  obtain ⟨x, y, hxy, hF⟩ := Fintype.exists_ne_map_eq_of_card_lt F hcard
  refine ⟨x.val, y.val, fun h => hxy (Fin.ext h), ?_⟩
  have htake : (sha256.Sum256 (bytesOf (queryURL x.val))).take 8
      = (sha256.Sum256 (bytesOf (queryURL y.val))).take 8 := by
    apply List.ext_getElem
    · simp [sha256.length_Sum256]
    · intro i h1 h2
      have hi : i < 8 := by
        simp [sha256.length_Sum256] at h1
        exact h1
      have hFi := congrArg (fun f => (f ⟨i, hi⟩).val) hF
      simp only [F, List.getD_eq_getElem?_getD, List.getElem?_eq_getElem h1,
        List.getElem?_eq_getElem h2, Option.getD_some] at hFi
      have hb1 := sha256.Sum256_lt _ _ (List.mem_of_mem_take (List.getElem_mem h1))
      have hb2 := sha256.Sum256_lt _ _ (List.mem_of_mem_take (List.getElem_mem h2))
      rw [Nat.mod_eq_of_lt hb1, Nat.mod_eq_of_lt hb2] at hFi
      exact hFi
  unfold urlHash
  simp only [htake]

/-- What a download gives when the server answers 200, the body is copied to
the end and the output path can be created. -/
theorem downloadFile_success (get : String → http.Result) (fs : FS) (rawURL outputDir : String)
    (body : List Nat) (hget : get rawURL = .response 200 body false)
    (hdir : fs.dirs (outputPathFor fs rawURL outputDir) = false)
    (hden : fs.denied (outputPathFor fs rawURL outputDir) = false) :
    downloadFile get fs rawURL outputDir
      = (fs.write (outputPathFor fs rawURL outputDir) body,
          .ok (outputPathFor fs rawURL outputDir, (body.length : Int))) := by
  unfold downloadFile
  rw [hget]
  simp only [http.StatusOK, ne_eq, not_true_eq_false, if_false, os.Create, hdir, hden,
    Bool.or_self, Bool.false_eq_true, FS.write_write]

theorem suffixed_path_length (dir u : String) :
    17 ≤ (filepath.Join [dir, strings.TrimSuffix (filenameFromURL u)
        (filepath.Ext (filenameFromURL u)) ++ "_" ++ urlHash u ++
          filepath.Ext (filenameFromURL u)]).data.length := by
  obtain ⟨Q, hnormal, _⟩ := filepath.Join_spec dir
  have hlen := suffixed_length u
  have h2 := hnormal _ (suffixed_no_slash u)
    (by intro h; rw [h] at hlen; simp at hlen)
    (by intro h; rw [h] at hlen; simp at hlen)
    (by intro h; rw [h] at hlen; simp at hlen)
  rw [h2, List.length_append, hlen]
  omega

/-- On a disk with `d/a.zip`, every URL of the family is written to the
suffixed path. -/
theorem outputPathFor_queryURL (fs : FS) (n : Nat) (h : os.Stat fs "d/a.zip" = true) :
    outputPathFor fs (queryURL n) "d"
      = filepath.Join ["d", "a_" ++ urlHash (queryURL n) ++ ".zip"] := by
  unfold outputPathFor
  simp only [filenameFromURL_queryURL]
  have h1 : filepath.Join ["d", "a.zip"] = "d/a.zip" := by decide
  have h2 : filepath.Ext "a.zip" = ".zip" := by decide
  have h3 : strings.TrimSuffix "a.zip" ".zip" = "a" := by decide
  rw [h1, h, h2, h3]
  rfl

/-! ## Lemmas on `json.standard` -/

namespace utf8

end utf8

namespace json

end json

/-! ## Saving and loading with a codec that reads back what it wrote -/

/-- C1 as stated fails: there are two different URLs with the same file name
whose successful downloads, one after the other, return the same output path.
Both have the file name `a.zip` and the same `urlHash`; with `d/a.zip` on the
disk both downloads go to `d/a_<urlHash>.zip`. -/
theorem same_name_urls_same_output_path :
    ¬ ∀ (get1 get2 : String → http.Result) (fs fs1 fs2 : FS) (dir u1 u2 p1 p2 : String)
        (s1 s2 : Int),
        u1 ≠ u2 → filenameFromURL u1 = filenameFromURL u2 →
        downloadFile get1 fs u1 dir = (fs1, .ok (p1, s1)) →
        downloadFile get2 fs1 u2 dir = (fs2, .ok (p2, s2)) → p1 ≠ p2 := by
  intro hclaim
  obtain ⟨n, m, hnm, hhash⟩ := exists_urlHash_collision
  have hp : ∀ (fs : FS) (k : Nat), os.Stat fs "d/a.zip" = true →
      (∀ p, fs.dirs p = true → p.data.length < 17) → (∀ p, fs.denied p = false) →
      downloadFile okNet fs (queryURL k) "d"
        = (fs.write (filepath.Join ["d", "a_" ++ urlHash (queryURL k) ++ ".zip"]) [1, 2, 3],
            .ok (filepath.Join ["d", "a_" ++ urlHash (queryURL k) ++ ".zip"], 3)) := by
    intro fs k hstat hdirs hden
    have hpath := outputPathFor_queryURL fs k hstat
    have hlen := suffixed_path_length "d" (queryURL k)
    have hdir : fs.dirs (outputPathFor fs (queryURL k) "d") = false := by
      cases hd : fs.dirs (outputPathFor fs (queryURL k) "d") with
      | false => rfl
      | true =>
          have h17 : 17 ≤ (outputPathFor fs (queryURL k) "d").data.length := by
            rw [hpath]
            have h2 : filepath.Ext "a.zip" = ".zip" := by decide
            have h3 : strings.TrimSuffix "a.zip" ".zip" = "a" := by decide
            rw [filenameFromURL_queryURL, h2, h3] at hlen
            exact hlen
          have := hdirs _ hd
          omega
    have := downloadFile_success okNet fs (queryURL k) "d" [1, 2, 3] rfl hdir (hden _)
    rw [hpath] at this
    exact this
  have hshort : ∀ p, diskWithPlain.dirs p = true → p.data.length < 17 := by
    intro p h
    simp only [diskWithPlain, diskWith, List.contains_cons, List.contains_nil, Bool.or_false,
      Bool.or_eq_true, beq_iff_eq] at h
    rcases h with h | h <;> (rw [h]; decide)
  have h1 := hp diskWithPlain n (by decide) hshort (fun _ => rfl)
  have h2 := hp (diskWithPlain.write
      (filepath.Join ["d", "a_" ++ urlHash (queryURL n) ++ ".zip"]) [1, 2, 3]) m
    (os.Stat_write _ _ _ _ (Or.inl (by decide))) hshort (fun _ => rfl)
  refine hclaim okNet okNet diskWithPlain _ _ "d" (queryURL n) (queryURL m) _ _ 3 3
    (fun h => hnm (queryURL_injective n m h))
    ((filenameFromURL_queryURL n).trans (filenameFromURL_queryURL m).symm) h1 h2 ?_
  rw [hhash]

/-- C1, amended: for two URLs with the same file name, a successful download
of the first followed by a successful download of the second into the same
directory returns two different output paths, and the second download leaves
the file of the first as it was, provided that the two URLs have different
`urlHash` or that nothing existed at the plain output path before the first
download. -/
theorem downloadFile_twice_distinct_paths (get1 get2 : String → http.Result) (fs fs1 fs2 : FS)
    (dir u1 u2 p1 p2 : String) (s1 s2 : Int)
    (hname : filenameFromURL u1 = filenameFromURL u2)
    (hcond : urlHash u1 ≠ urlHash u2 ∨
      os.Stat fs (filepath.Join [dir, filenameFromURL u1]) = false)
    (h1 : downloadFile get1 fs u1 dir = (fs1, .ok (p1, s1)))
    (h2 : downloadFile get2 fs1 u2 dir = (fs2, .ok (p2, s2))) :
    p1 ≠ p2 ∧ fs2.files p1 = fs1.files p1 := by
  obtain ⟨hp1, body1, _, _, hfs1⟩ := downloadFile_ok get1 fs fs1 u1 dir p1 s1 h1
  obtain ⟨hp2, _⟩ := downloadFile_ok get2 fs1 fs2 u2 dir p2 s2 h2
  have hne : p1 ≠ p2 := by
    by_cases hstat : os.Stat fs (filepath.Join [dir, filenameFromURL u1]) = true
    · have hhash : urlHash u1 ≠ urlHash u2 := by
        rcases hcond with h | h
        · exact h
        · rw [hstat] at h
          cases h
      have hstat1 : os.Stat fs1 (filepath.Join [dir, filenameFromURL u2]) = true := by
        rw [hfs1, ← hname]
        exact os.Stat_write _ _ _ _ (Or.inl hstat)
      have e1 : p1 = _ := hp1
      have e2 : p2 = _ := hp2
      unfold outputPathFor at e1 e2
      simp only [hstat, if_true] at e1
      simp only [hstat1, if_true] at e2
      intro heq
      rw [e1, e2] at heq
      exact hhash (suffixed_injective dir u1 u2 hname heq)
    · have e1 : p1 = _ := hp1
      unfold outputPathFor at e1
      simp only [hstat, if_false] at e1
      have hstat1 : os.Stat fs1 (filepath.Join [dir, filenameFromURL u2]) = true := by
        rw [hfs1, ← hname]
        exact os.Stat_write _ _ _ _ (Or.inr e1.symm)
      have e2 : p2 = _ := hp2
      unfold outputPathFor at e2
      simp only [hstat1, if_true] at e2
      rw [e1, e2, hname]
      exact plain_ne_suffixed dir u2
  refine ⟨hne, ?_⟩
  have := downloadFile_files_other get2 fs1 u2 dir p1 (by rw [← hp2]; exact hne)
  rw [h2] at this
  exact this

set_option maxRecDepth 100000 in
/-- C1 amended, at a concrete input: `https://x.test/a.zip` and
`https://y.test/a.zip` downloaded into `d` on an empty disk go to `d/a.zip`
and `d/a_ac16e8cdab750b25.zip`. -/
theorem downloadFile_twice_distinct_paths_witness :
    "d/a.zip" ≠ "d/a_ac16e8cdab750b25.zip" ∧
    (downloadFile okNet (downloadFile okNet emptyDisk "https://x.test/a.zip" "d").1
        "https://y.test/a.zip" "d").1.files "d/a.zip"
      = (downloadFile okNet emptyDisk "https://x.test/a.zip" "d").1.files "d/a.zip" :=
  downloadFile_twice_distinct_paths okNet okNet emptyDisk
    (downloadFile okNet emptyDisk "https://x.test/a.zip" "d").1
    (downloadFile okNet (downloadFile okNet emptyDisk "https://x.test/a.zip" "d").1
      "https://y.test/a.zip" "d").1
    "d" "https://x.test/a.zip" "https://y.test/a.zip" "d/a.zip" "d/a_ac16e8cdab750b25.zip" 3 3
    (by decide) (Or.inr (by decide))
    (Prod.ext rfl (Except.eq_ok_of_toOption (by decide)))
    (Prod.ext rfl (Except.eq_ok_of_toOption (by decide)))

set_option maxRecDepth 100000 in
/-- C2, at the failing input: with files at both `d/a.zip` and
`d/a_3cb6523ff570b612.zip`, a download of `https://x.test/a.zip` into `d`
opens the second, existing file for writing: a successful download replaces
its content, and a download that fails during the copy removes it. -/
theorem downloadFile_overwrites_suffixed_file :
    occupiedDisk.files "d/a_3cb6523ff570b612.zip" = some [9] ∧
    outputPathFor occupiedDisk "https://x.test/a.zip" "d" = "d/a_3cb6523ff570b612.zip" ∧
    (downloadFile okNet occupiedDisk "https://x.test/a.zip" "d").1.files
        "d/a_3cb6523ff570b612.zip" = some [1, 2, 3] ∧
    (downloadFile brokenNet occupiedDisk "https://x.test/a.zip" "d").1.files
        "d/a_3cb6523ff570b612.zip" = none := by
  decide

set_option maxRecDepth 100000 in
/-- C3 as stated fails: the URL is a key of `Downloads` and its recorded file
`old/a.zip` is on the disk, yet a forced download into the directory `new`,
where no `a.zip` exists, writes `new/a.zip`, a name without `urlHash`. -/
theorem forced_redownload_without_suffix :
    GoMap.get (downloadedInto "old").history.Downloads "https://x.test/a.zip"
      = some ⟨"https://x.test/a.zip", "old/a.zip", 1700000000, 1⟩ ∧
    (downloadedInto "old").fs.files "old/a.zip" = some [7] ∧
    (processURL json.reference forceIntoNew okNet 1700000100 (downloadedInto "old")
      "https://x.test/a.zip").outcome = .succeeded "new/a.zip" 3 ∧
    "new/a.zip" ≠ filepath.Join ["new", "a_" ++ urlHash "https://x.test/a.zip" ++ ".zip"] := by
  decide

/-- C3, amended: for a URL that is a key of `Downloads`, when something
exists at the plain output path and no file at the suffixed one, a forced pass
with a successful transfer writes the body to the suffixed path (the file name
with `_` and `urlHash` of the URL before its extension), sets `Downloads` of
the URL to the new record with that path and the size of the body, and leaves
every file that was on the disk, the history file apart, with its content. -/
theorem processURL_forced_redownload (J : json.Codec) (flags : Flags)
    (get : String → http.Result) (now : Nat) (st : State) (u : String) (record : DownloadRecord)
    (hf : flags.f = true) (htrim : strings.TrimSpace u = u) (hne : u ≠ "")
    (_hrec : GoMap.get st.history.Downloads u = some record)
    (hplain : os.Stat st.fs (filepath.Join [flags.o, filenameFromURL u]) = true)
    (hfree : st.fs.files (filepath.Join [flags.o,
      strings.TrimSuffix (filenameFromURL u) (filepath.Ext (filenameFromURL u)) ++ "_" ++
        urlHash u ++ filepath.Ext (filenameFromURL u)]) = none)
    (hok : ∃ outputPath size,
      (processURL J flags get now st u).outcome = .succeeded outputPath size) :
    ∃ body,
      get u = .response 200 body false ∧
      (processURL J flags get now st u).outcome
        = .succeeded (filepath.Join [flags.o,
            strings.TrimSuffix (filenameFromURL u) (filepath.Ext (filenameFromURL u)) ++ "_" ++
              urlHash u ++ filepath.Ext (filenameFromURL u)]) (body.length : Int) ∧
      GoMap.get (processURL J flags get now st u).state.history.Downloads u
        = some ⟨u, filepath.Join [flags.o,
            strings.TrimSuffix (filenameFromURL u) (filepath.Ext (filenameFromURL u)) ++ "_" ++
              urlHash u ++ filepath.Ext (filenameFromURL u)], now, (body.length : Int)⟩ ∧
      (filepath.Join [flags.o,
            strings.TrimSuffix (filenameFromURL u) (filepath.Ext (filenameFromURL u)) ++ "_" ++
              urlHash u ++ filepath.Ext (filenameFromURL u)] ≠ flags.history →
        (processURL J flags get now st u).state.fs.files (filepath.Join [flags.o,
            strings.TrimSuffix (filenameFromURL u) (filepath.Ext (filenameFromURL u)) ++ "_" ++
              urlHash u ++ filepath.Ext (filenameFromURL u)]) = some body) ∧
      ∀ p, p ≠ flags.history → (st.fs.files p).isSome →
        (processURL J flags get now st u).state.fs.files p = st.fs.files p := by
  have hpath : outputPathFor st.fs u flags.o = filepath.Join [flags.o,
      strings.TrimSuffix (filenameFromURL u) (filepath.Ext (filenameFromURL u)) ++ "_" ++
        urlHash u ++ filepath.Ext (filenameFromURL u)] := by
    unfold outputPathFor
    simp only [hplain, if_true]
  rw [← hpath] at hfree ⊢
  obtain ⟨outputPath, size, hok⟩ := hok
  have hstep : processURL J flags get now st u =
      (match downloadFile get st.fs u flags.o with
        | (fs1, .error err) =>
            (⟨⟨st.history, fs1⟩, .failed err, [.downloadFile u flags.o]⟩ : StepResult)
        | (fs1, .ok (outputPath, size)) =>
            let history : History :=
              ⟨GoMap.set st.history.Downloads u ⟨u, outputPath, now, size⟩,
               GoMap.set st.history.DownloadedFiles (filenameFromURL u) u⟩
            let fs2 := (saveHistory J fs1 flags.history history).getD fs1
            ⟨⟨history, fs2⟩, .succeeded outputPath size,
              [.downloadFile u flags.o, .saveHistory flags.history]⟩) := by
    unfold processURL
    simp only [htrim, hne, if_false, hf]
    cases GoMap.get st.history.Downloads u <;> simp
  rw [hstep] at hok ⊢
  rcases hd : downloadFile get st.fs u flags.o with ⟨fs1, err | ⟨path1, size1⟩⟩
  · rw [hd] at hok
    cases hok
  · obtain ⟨hp1, body, hget, hsize, hfs1⟩ := downloadFile_ok get st.fs fs1 u flags.o path1 size1 hd
    subst hp1
    subst hsize
    refine ⟨body, hget, rfl, ?_, ?_, ?_⟩
    · exact GoMap.get_set_same _ _ _
    · intro hhist
      show ((saveHistory J fs1 flags.history _).getD fs1).files _ = _
      rw [saveHistory_files_other _ _ _ _ _ hhist, hfs1]
      simp [FS.write]
    · intro p hp hsome
      show ((saveHistory J fs1 flags.history _).getD fs1).files p = _
      rw [saveHistory_files_other _ _ _ _ _ hp, hfs1]
      have hpne : p ≠ outputPathFor st.fs u flags.o := by
        intro heq
        rw [heq, hfree] at hsome
        cases hsome
      simp [FS.write, hpne]

set_option maxRecDepth 100000 in
/-- C3 amended, at a concrete input: `d/a.zip` is recorded and on the disk,
and the forced download into `d` writes `d/a_3cb6523ff570b612.zip`. -/
theorem processURL_forced_redownload_witness :
    (processURL json.reference forceIntoD okNet 1700000100 (downloadedInto "d")
        "https://x.test/a.zip").outcome = .succeeded "d/a_3cb6523ff570b612.zip" 3 ∧
    (processURL json.reference forceIntoD okNet 1700000100 (downloadedInto "d")
        "https://x.test/a.zip").state.fs.files "d/a.zip" = some [7] := by
  obtain ⟨body, hget, hout, _, _, hfiles⟩ :=
    processURL_forced_redownload json.reference forceIntoD okNet 1700000100 (downloadedInto "d")
      "https://x.test/a.zip" ⟨"https://x.test/a.zip", "d/a.zip", 1700000000, 1⟩
      rfl (by decide) (by decide) (by decide) (by decide) (by decide)
      ⟨"d/a_3cb6523ff570b612.zip", 3, by decide⟩
  have hbody : body = [1, 2, 3] := by
    simp only [okNet, http.Result.response.injEq] at hget
    exact hget.2.1.symm
  subst hbody
  refine ⟨?_, ?_⟩
  · rw [hout]
    have : filepath.Join [forceIntoD.o,
        strings.TrimSuffix (filenameFromURL "https://x.test/a.zip")
          (filepath.Ext (filenameFromURL "https://x.test/a.zip")) ++ "_" ++
          urlHash "https://x.test/a.zip" ++ filepath.Ext (filenameFromURL "https://x.test/a.zip")]
        = "d/a_3cb6523ff570b612.zip" := by decide
    rw [this]
    rfl
  · rw [hfiles "d/a.zip" (by decide) (by decide)]
    decide

/-- C4: processing a URL twice in a row without force, the first pass being a
successful download, the second pass skips by URL: it leaves the history and
the disk exactly as the first pass left them and makes no call (no download,
no save). -/
theorem processURL_twice_second_is_noop (J : json.Codec) (flags : Flags)
    (get1 get2 : String → http.Result) (now1 now2 : Nat) (st : State) (u : String)
    (hf : flags.f = false)
    (h1 : ∃ outputPath size,
      (processURL J flags get1 now1 st u).outcome = .succeeded outputPath size) :
    (processURL J flags get2 now2 (processURL J flags get1 now1 st u).state u).state
      = (processURL J flags get1 now1 st u).state ∧
    (processURL J flags get2 now2 (processURL J flags get1 now1 st u).state u).calls = [] ∧
    ∃ record,
      (processURL J flags get2 now2 (processURL J flags get1 now1 st u).state u).outcome
        = .skippedByURL record ∧
      GoMap.get (processURL J flags get1 now1 st u).state.history.Downloads
        (strings.TrimSpace u) = some record := by
  obtain ⟨outputPath, size, h1⟩ := h1
  have hget : GoMap.get (processURL J flags get1 now1 st u).state.history.Downloads
      (strings.TrimSpace u) = some ⟨strings.TrimSpace u, outputPath, now1, size⟩ ∧
      strings.TrimSpace u ≠ "" := by
    revert h1
    unfold processURL
    simp only
    split
    · intro h
      cases h
    · rename_i hne
      split
      · intro h
        cases h
      · split
        · intro h
          cases h
        · split
          · intro h
            cases h
          · intro h
            simp only [Outcome.succeeded.injEq] at h
            obtain ⟨hp, hs⟩ := h
            subst hp
            subst hs
            exact ⟨GoMap.get_set_same _ _ _, hne⟩
  obtain ⟨hget, hne⟩ := hget
  generalize processURL J flags get1 now1 st u = r1 at hget ⊢
  have h2 : processURL J flags get2 now2 r1.state u
      = ⟨r1.state, .skippedByURL ⟨strings.TrimSpace u, outputPath, now1, size⟩, []⟩ := by
    unfold processURL
    simp only [hne, if_false, hget, hf]
  rw [h2]
  exact ⟨rfl, rfl, _, rfl, hget⟩

/-- C4, at a concrete input: a new URL on an empty history and an empty
disk. -/
theorem processURL_twice_second_is_noop_witness :
    (processURL json.reference defaultFlags okNet 1
      (processURL json.reference defaultFlags okNet 0 ⟨⟨[], []⟩, emptyDisk⟩
        "https://x.test/a.zip").state "https://x.test/a.zip").calls = [] :=
  (processURL_twice_second_is_noop json.reference defaultFlags okNet okNet 0 1
    ⟨⟨[], []⟩, emptyDisk⟩ "https://x.test/a.zip" rfl ⟨"a.zip", 3, by decide⟩).2.1

/-- C5: for every history and every trimmed, non-empty URL, with force off
the loop calls `downloadFile` for the URL exactly when the URL is not a key of
`Downloads` and its file name is not a key of `DownloadedFiles`, the URL being
checked first; with force on it calls `downloadFile` whatever the history.
A pass that skips returns the state it was given, whatever the network would
answer, and makes no call.  A pass that calls `downloadFile` applies it to the
URL, the disk of the state and the output directory: its outcome is the
result of that call, its disk is the disk that call leaves (after
`saveHistory` on success), and its history is the old one on an error and the
old one with the new record on success. -/
theorem processURL_calls_downloadFile_iff (J : json.Codec) (flags : Flags)
    (get : String → http.Result) (now : Nat) (st : State) (u : String)
    (htrim : strings.TrimSpace u = u) (hne : u ≠ "") :
    (flags.f = false →
      ((Call.downloadFile u flags.o ∈ (processURL J flags get now st u).calls ↔
          GoMap.get st.history.Downloads u = none ∧
          GoMap.get st.history.DownloadedFiles (filenameFromURL u) = none) ∧
       (∀ record, GoMap.get st.history.Downloads u = some record →
          processURL J flags get now st u = ⟨st, .skippedByURL record, []⟩) ∧
       (GoMap.get st.history.Downloads u = none →
          (GoMap.get st.history.DownloadedFiles (filenameFromURL u)).isSome →
          processURL J flags get now st u
            = ⟨st, .skippedByFilename (filenameFromURL u), []⟩))) ∧
    (flags.f = true ∨
        (GoMap.get st.history.Downloads u = none ∧
         GoMap.get st.history.DownloadedFiles (filenameFromURL u) = none) →
      Call.downloadFile u flags.o ∈ (processURL J flags get now st u).calls ∧
      (processURL J flags get now st u).outcome =
        (match (downloadFile get st.fs u flags.o).2 with
         | .error err => .failed err
         | .ok (outputPath, size) => .succeeded outputPath size) ∧
      (processURL J flags get now st u).state.history =
        (match (downloadFile get st.fs u flags.o).2 with
         | .error _ => st.history
         | .ok (outputPath, size) =>
             ⟨GoMap.set st.history.Downloads u ⟨u, outputPath, now, size⟩,
              GoMap.set st.history.DownloadedFiles (filenameFromURL u) u⟩) ∧
      (processURL J flags get now st u).state.fs =
        (match (downloadFile get st.fs u flags.o).2 with
         | .error _ => (downloadFile get st.fs u flags.o).1
         | .ok _ =>
             (saveHistory J (downloadFile get st.fs u flags.o).1 flags.history
               (processURL J flags get now st u).state.history).getD
               (downloadFile get st.fs u flags.o).1)) := by
  have hdown : ∀ r : StepResult,
      r = (match downloadFile get st.fs u flags.o with
          | (fs1, .error err) =>
              (⟨⟨st.history, fs1⟩, .failed err, [.downloadFile u flags.o]⟩ : StepResult)
          | (fs1, .ok (outputPath, size)) =>
              let history : History :=
                ⟨GoMap.set st.history.Downloads u ⟨u, outputPath, now, size⟩,
                 GoMap.set st.history.DownloadedFiles (filenameFromURL u) u⟩
              let fs2 := (saveHistory J fs1 flags.history history).getD fs1
              ⟨⟨history, fs2⟩, .succeeded outputPath size,
                [.downloadFile u flags.o, .saveHistory flags.history]⟩) →
      Call.downloadFile u flags.o ∈ r.calls ∧
      r.outcome =
        (match (downloadFile get st.fs u flags.o).2 with
         | .error err => .failed err
         | .ok (outputPath, size) => .succeeded outputPath size) ∧
      r.state.history =
        (match (downloadFile get st.fs u flags.o).2 with
         | .error _ => st.history
         | .ok (outputPath, size) =>
             ⟨GoMap.set st.history.Downloads u ⟨u, outputPath, now, size⟩,
              GoMap.set st.history.DownloadedFiles (filenameFromURL u) u⟩) ∧
      r.state.fs =
        (match (downloadFile get st.fs u flags.o).2 with
         | .error _ => (downloadFile get st.fs u flags.o).1
         | .ok _ =>
             (saveHistory J (downloadFile get st.fs u flags.o).1 flags.history
               r.state.history).getD (downloadFile get st.fs u flags.o).1) := by
    intro r hr
    rcases hd : downloadFile get st.fs u flags.o with ⟨fs1, err | ⟨outputPath, size⟩⟩
    · rw [hd] at hr
      subst hr
      simp
    · rw [hd] at hr
      subst hr
      simp
  have hforce : flags.f = true →
      processURL J flags get now st u =
        (match downloadFile get st.fs u flags.o with
          | (fs1, .error err) =>
              (⟨⟨st.history, fs1⟩, .failed err, [.downloadFile u flags.o]⟩ : StepResult)
          | (fs1, .ok (outputPath, size)) =>
              let history : History :=
                ⟨GoMap.set st.history.Downloads u ⟨u, outputPath, now, size⟩,
                 GoMap.set st.history.DownloadedFiles (filenameFromURL u) u⟩
              let fs2 := (saveHistory J fs1 flags.history history).getD fs1
              ⟨⟨history, fs2⟩, .succeeded outputPath size,
                [.downloadFile u flags.o, .saveHistory flags.history]⟩) := by
    intro hf
    unfold processURL
    simp only [htrim, hne, if_false, hf]
    cases GoMap.get st.history.Downloads u <;> simp
  have hnew : GoMap.get st.history.Downloads u = none →
      GoMap.get st.history.DownloadedFiles (filenameFromURL u) = none →
      processURL J flags get now st u =
        (match downloadFile get st.fs u flags.o with
          | (fs1, .error err) =>
              (⟨⟨st.history, fs1⟩, .failed err, [.downloadFile u flags.o]⟩ : StepResult)
          | (fs1, .ok (outputPath, size)) =>
              let history : History :=
                ⟨GoMap.set st.history.Downloads u ⟨u, outputPath, now, size⟩,
                 GoMap.set st.history.DownloadedFiles (filenameFromURL u) u⟩
              let fs2 := (saveHistory J fs1 flags.history history).getD fs1
              ⟨⟨history, fs2⟩, .succeeded outputPath size,
                [.downloadFile u flags.o, .saveHistory flags.history]⟩) := by
    intro hD hF
    unfold processURL
    simp only [htrim, hne, if_false, hD, hF]
    cases flags.f <;> simp
  have hskipURL : flags.f = false → ∀ record, GoMap.get st.history.Downloads u = some record →
      processURL J flags get now st u = ⟨st, .skippedByURL record, []⟩ := by
    intro hf record hD
    unfold processURL
    simp only [htrim, hne, if_false, hf, hD]
  have hskipName : flags.f = false → GoMap.get st.history.Downloads u = none →
      (GoMap.get st.history.DownloadedFiles (filenameFromURL u)).isSome →
      processURL J flags get now st u = ⟨st, .skippedByFilename (filenameFromURL u), []⟩ := by
    intro hf hD hF
    unfold processURL
    simp only [htrim, hne, if_false, hf, hD, hF, and_self, if_true]
  refine ⟨fun hf => ⟨?_, hskipURL hf, hskipName hf⟩, fun hc => ?_⟩
  · constructor
    · intro hmem
      cases hD : GoMap.get st.history.Downloads u with
      | some record =>
          rw [hskipURL hf record hD] at hmem
          simp at hmem
      | none =>
          cases hF : GoMap.get st.history.DownloadedFiles (filenameFromURL u) with
          | some v =>
              rw [hskipName hf hD (by simp [hF])] at hmem
              simp at hmem
          | none => exact ⟨rfl, rfl⟩
    · rintro ⟨hD, hF⟩
      exact (hdown _ (hnew hD hF)).1
  · rcases hc with hf | ⟨hD, hF⟩
    · exact hdown _ (hforce hf)
    · exact hdown _ (hnew hD hF)

set_option maxRecDepth 100000 in
/-- C5, at a concrete input: a new URL with force off, on an empty history
and an empty disk, with a server that answers 200: the pass calls
`downloadFile` and ends with what that call returns, `a.zip` and 3 bytes. -/
theorem processURL_calls_downloadFile_iff_witness :
    strings.TrimSpace "https://x.test/a.zip" = "https://x.test/a.zip" ∧
    "https://x.test/a.zip" ≠ "" ∧
    Call.downloadFile "https://x.test/a.zip" "." ∈
      (processURL json.reference defaultFlags okNet 0 ⟨⟨[], []⟩, emptyDisk⟩
        "https://x.test/a.zip").calls ∧
    (processURL json.reference defaultFlags okNet 0 ⟨⟨[], []⟩, emptyDisk⟩
        "https://x.test/a.zip").outcome = .succeeded "a.zip" 3 := by
  obtain ⟨hcall, hout, _, _⟩ :=
    (processURL_calls_downloadFile_iff json.reference defaultFlags okNet 0
      ⟨⟨[], []⟩, emptyDisk⟩ "https://x.test/a.zip" (by decide) (by decide)).2
      (Or.inr ⟨rfl, rfl⟩)
  have hd : (downloadFile okNet emptyDisk "https://x.test/a.zip" ".").2 = .ok ("a.zip", 3) :=
    Except.eq_ok_of_toOption (by decide)
  refine ⟨by decide, by decide, hcall, ?_⟩
  rw [hout]
  show (match (downloadFile okNet emptyDisk "https://x.test/a.zip" ".").2 with
    | .error err => Outcome.failed err
    | .ok (outputPath, size) => Outcome.succeeded outputPath size) = _
  rw [hd]

/-- C6: when a pass of the loop ends in anything but a successful transfer
(the URL dropped or skipped, or `downloadFile` returning an error such as a
status other than 200), both maps of the history in memory are what they were,
`saveHistory` is not called, and the loop goes on with the next URL. -/
theorem processURL_not_succeeded_history_unchanged (J : json.Codec) (flags : Flags)
    (get : String → http.Result) (now : Nat → Nat) (i : Nat) (st : State) (u : String)
    (rest : List String)
    (h : ∀ outputPath size,
      (processURL J flags get (now i) st u).outcome ≠ .succeeded outputPath size) :
    (processURL J flags get (now i) st u).state.history.Downloads = st.history.Downloads ∧
    (processURL J flags get (now i) st u).state.history.DownloadedFiles
      = st.history.DownloadedFiles ∧
    (∀ historyFile, Call.saveHistory historyFile ∉ (processURL J flags get (now i) st u).calls) ∧
    processURLs J flags get now i st (u :: rest) =
      ((processURLs J flags get now (i + 1)
          ⟨st.history, (processURL J flags get (now i) st u).state.fs⟩ rest).1,
        processURL J flags get (now i) st u ::
          (processURLs J flags get now (i + 1)
            ⟨st.history, (processURL J flags get (now i) st u).state.fs⟩ rest).2) := by
  have key : (processURL J flags get (now i) st u).state.history = st.history ∧
      (∀ historyFile, Call.saveHistory historyFile ∉ (processURL J flags get (now i) st u).calls) := by
    revert h
    unfold processURL
    simp only
    split
    · intro _
      simp
    · split
      · intro _
        simp
      · split
        · intro _
          simp
        · split
          · intro _
            simp
          · intro h
            exact absurd rfl (h _ _)
  have hst : (processURL J flags get (now i) st u).state
      = ⟨st.history, (processURL J flags get (now i) st u).state.fs⟩ := by
    rw [← key.1]
  refine ⟨by rw [key.1], by rw [key.1], key.2, ?_⟩
  rw [processURLs, hst]

/-- C6, at a concrete input: the server answers 404. -/
theorem processURL_not_succeeded_history_unchanged_witness :
    (processURL json.reference defaultFlags (fun _ => .response 404 [] false) 0
        ⟨⟨[], []⟩, emptyDisk⟩ "https://x.test/a.zip").outcome = .failed (.badStatus 404) ∧
    (processURL json.reference defaultFlags (fun _ => .response 404 [] false) 0
        ⟨⟨[], []⟩, emptyDisk⟩ "https://x.test/a.zip").state.history.Downloads = [] :=
  ⟨by decide,
    (processURL_not_succeeded_history_unchanged json.reference defaultFlags
      (fun _ => .response 404 [] false) (fun _ => 0) 0 ⟨⟨[], []⟩, emptyDisk⟩
      "https://x.test/a.zip" []
      (fun outputPath size h => by
        have h404 : (processURL json.reference defaultFlags (fun _ => .response 404 [] false) 0
            ⟨⟨[], []⟩, emptyDisk⟩ "https://x.test/a.zip").outcome = .failed (.badStatus 404) := by
          decide
        rw [h404] at h
        cases h)).1⟩

/-- C7: a history file that parses, with `downloaded_files` empty or absent
and `downloads` non-empty, is loaded with `needsSave = true`, `downloads`
as parsed, and a `downloaded_files` in which the file name of every URL of
`downloads` is mapped to a URL of `downloads` with that file name; every other
history file that parses is loaded with `needsSave = false` and both maps as
parsed. -/
theorem loadHistory_migrates_legacy (J : json.Codec) (fs : FS) (historyFile : String)
    (data : List Nat) (doc : json.Document)
    (hread : os.ReadFile fs historyFile = .data data) (hparse : J.Unmarshal data = some doc) :
    if doc.downloaded_files.getD [] = [] ∧ doc.downloads.getD [] ≠ [] then
      ∃ files, loadHistory J fs historyFile = some (⟨doc.downloads.getD [], files⟩, true) ∧
        ∀ u, (GoMap.get (doc.downloads.getD []) u).isSome →
          ∃ u2, GoMap.get files (filenameFromURL u) = some u2 ∧
            (GoMap.get (doc.downloads.getD []) u2).isSome ∧
            filenameFromURL u2 = filenameFromURL u
    else
      loadHistory J fs historyFile
        = some (⟨doc.downloads.getD [], doc.downloaded_files.getD []⟩, false) := by
  split
  · rename_i h
    obtain ⟨hf, hd⟩ := h
    refine ⟨backfill (doc.downloads.getD []) [], ?_, ?_⟩
    · unfold loadHistory
      simp only [hread, hparse, hf, List.length_nil, true_and]
      rw [if_pos (List.length_pos.mpr hd)]
    · intro u hu
      obtain ⟨h1, h2⟩ := backfill_legacy (doc.downloads.getD [])
      obtain ⟨u2, hu2⟩ := Option.isSome_iff_exists.mp (h2 u hu)
      exact ⟨u2, hu2, h1 _ _ hu2⟩
  · rename_i h
    unfold loadHistory
    simp only [hread, hparse]
    rw [if_neg]
    intro hc
    exact h ⟨List.length_eq_zero.mp hc.1, List.length_pos.mp hc.2⟩

/-- C7, at a concrete input: the history file holds only `downloads`, with the
URL `https://x.test/a.zip`; then `downloaded_files["a.zip"]` is that URL and
`needsSave` is true. -/
theorem loadHistory_migrates_legacy_witness :
    ∃ files, loadHistory json.reference legacyDisk ".download_history.json"
        = some (⟨legacyHistory.Downloads, files⟩, true) ∧
      GoMap.get files "a.zip" = some "https://x.test/a.zip" := by
  have h := loadHistory_migrates_legacy json.reference legacyDisk ".download_history.json"
    (json.reference.bytes legacyHistory) ⟨some legacyHistory.Downloads, some []⟩
    rfl (json.reference_Unmarshal legacyHistory)
  rw [if_pos (by decide)] at h
  obtain ⟨files, hload, hkeys⟩ := h
  refine ⟨files, hload, ?_⟩
  obtain ⟨u2, hget, hu2, _⟩ := hkeys "https://x.test/a.zip" (by decide)
  have hfn : filenameFromURL "https://x.test/a.zip" = "a.zip" := by decide
  rw [hfn] at hget
  rw [hget]
  by_cases hu : "https://x.test/a.zip" = u2
  · rw [← hu]
  · simp [legacyHistory, GoMap.get, hu] at hu2

/-- C9 as stated fails: on a disk whose history file holds a legacy history,
a run in list mode ends with exit code 0 and has rewritten the history
file. -/
theorem list_mode_rewrites_legacy_history :
    (Downloader.main json.reference listFlags [] okNet (fun _ => 0) legacyDisk).exitCode = 0 ∧
    (Downloader.main json.reference listFlags [] okNet (fun _ => 0) legacyDisk).fs.files
        ".download_history.json"
      ≠ legacyDisk.files ".download_history.json" := by
  have hload : loadHistory json.reference legacyDisk listFlags.history
      = some (⟨legacyHistory.Downloads, backfill legacyHistory.Downloads []⟩, true) :=
    (json.loadHistory_reference legacyDisk listFlags.history legacyHistory rfl).trans rfl
  have hmk : os.MkdirAll legacyDisk listFlags.o = some legacyDisk := rfl
  have hsave : saveHistory json.reference legacyDisk listFlags.history
      ⟨legacyHistory.Downloads, backfill legacyHistory.Downloads []⟩
      = some (legacyDisk.write ".download_history.json"
          (json.reference.bytes ⟨legacyHistory.Downloads, backfill legacyHistory.Downloads []⟩)) :=
    (json.saveHistory_reference _ _ _).trans rfl
  have hrun : Downloader.main json.reference listFlags [] okNet (fun _ => 0) legacyDisk
      = ⟨legacyDisk.write ".download_history.json"
          (json.reference.bytes ⟨legacyHistory.Downloads, backfill legacyHistory.Downloads []⟩),
         0, [.saveHistory ".download_history.json"]⟩ := by
    rw [Downloader.main_list_migrating json.reference listFlags [] okNet (fun _ => 0) legacyDisk
      legacyDisk _ rfl hmk hload, hsave]
    rfl
  rw [hrun]
  refine ⟨rfl, ?_⟩
  intro heq
  have h1 : (legacyDisk.write ".download_history.json"
      (json.reference.bytes ⟨legacyHistory.Downloads, backfill legacyHistory.Downloads []⟩)).files
      ".download_history.json"
      = some (json.reference.bytes ⟨legacyHistory.Downloads, backfill legacyHistory.Downloads []⟩) := by
    simp [FS.write]
  have h2 : legacyDisk.files ".download_history.json"
      = some (json.reference.bytes legacyHistory) := rfl
  rw [h1, h2] at heq
  have h3 := json.reference_bytes_injective _ _ (Option.some.inj heq)
  have h4 : (⟨legacyHistory.Downloads, backfill legacyHistory.Downloads []⟩ : History)
      ≠ legacyHistory := by decide
  exact h4 h3

/-- C9, amended: a run in list mode never calls `downloadFile` and changes no
file but the history file; the history file is rewritten only when the
loaded history needs the migration, and otherwise no file changes. -/
theorem list_mode_changes_only_history_file (J : json.Codec) (flags : Flags)
    (stdin : List String) (get : String → http.Result) (now : Nat → Nat) (fs : FS)
    (hlist : flags.list = true) :
    (∀ rawURL outputDir,
      Call.downloadFile rawURL outputDir ∉ (Downloader.main J flags stdin get now fs).calls) ∧
    (∀ p, p ≠ flags.history →
      (Downloader.main J flags stdin get now fs).fs.files p = fs.files p) ∧
    ((∀ fs1 history, os.MkdirAll fs flags.o = some fs1 →
        loadHistory J fs1 flags.history ≠ some (history, true)) →
      ∀ p, (Downloader.main J flags stdin get now fs).fs.files p = fs.files p) := by
  have hmkfiles : ∀ fs1, os.MkdirAll fs flags.o = some fs1 → fs1.files = fs.files := by
    intro fs1 h
    unfold os.MkdirAll at h
    split at h
    · cases h
      rfl
    · split at h
      · cases h
      · cases h
        rfl
  unfold Downloader.main
  cases hmk : os.MkdirAll fs flags.o with
  | none => exact ⟨fun _ _ => by simp, fun _ _ => rfl, fun _ _ => rfl⟩
  | some fs1 =>
      have hfiles := hmkfiles fs1 hmk
      cases hload : loadHistory J fs1 flags.history with
      | none =>
          simp only [hload]
          exact ⟨fun _ _ => by simp, fun p _ => by rw [hfiles], fun _ p => by rw [hfiles]⟩
      | some loaded =>
          obtain ⟨history, needsSave⟩ := loaded
          simp only [hload, hlist, if_true]
          cases needsSave with
          | false =>
              simp only [Bool.false_eq_true, if_false]
              exact ⟨fun _ _ => by simp, fun p _ => by rw [hfiles], fun _ p => by rw [hfiles]⟩
          | true =>
              simp only [if_true]
              refine ⟨fun _ _ => by simp, fun p hp => ?_, fun hno => ?_⟩
              · rw [saveHistory_files_other _ _ _ _ _ hp, hfiles]
              · exact absurd hload (hno fs1 history rfl)

/-- C9 amended, at a concrete input: list mode on a disk with the file
`d/a.zip` and no history file leaves `d/a.zip` as it was. -/
theorem list_mode_changes_only_history_file_witness :
    (Downloader.main json.reference listFlags [] okNet (fun _ => 0)
        (downloadedInto "d").fs).fs.files "d/a.zip"
      = (downloadedInto "d").fs.files "d/a.zip" :=
  (list_mode_changes_only_history_file json.reference listFlags [] okNet (fun _ => 0)
    (downloadedInto "d").fs rfl).2.2 (fun fs1 history hmk hload => by
      have h1 : fs1 = (downloadedInto "d").fs := by
        have : os.MkdirAll (downloadedInto "d").fs listFlags.o = some (downloadedInto "d").fs := rfl
        rw [this] at hmk
        exact (Option.some.inj hmk).symm
      subst h1
      have h2 : loadHistory json.reference (downloadedInto "d").fs listFlags.history
          = some (⟨[], []⟩, false) := rfl
      rw [h2] at hload
      cases hload) "d/a.zip"

/-- C10: for every input string, `filenameFromURL` returns a non-empty string;
it returns `urlHash` of the input, 16 lowercase hexadecimal digits, when the
input does not parse as a URL or when the last element of its path is empty,
`.` or `/`, and that last element otherwise. -/
theorem filenameFromURL_nonempty_and_cases (u : String) :
    filenameFromURL u ≠ "" ∧
    (urlHash u).length = 16 ∧
    (∀ c ∈ (urlHash u).data, c ∈ "0123456789abcdef".data) ∧
    filenameFromURL u =
      (match url.Parse u with
       | none => urlHash u
       | some parsed =>
           if filepath.Base parsed.Path = "" ∨ filepath.Base parsed.Path = "." ∨
               filepath.Base parsed.Path = "/" then urlHash u
           else filepath.Base parsed.Path) := by
  refine ⟨?_, length_urlHash u, fun c hc => hex.mem_EncodeToString _ c hc, ?_⟩
  · unfold filenameFromURL
    cases url.Parse u with
    | none => exact urlHash_ne_empty u
    | some parsed =>
        simp only
        split
        · exact urlHash_ne_empty u
        · rename_i h
          intro h0
          exact h (Or.inl h0)
  · unfold filenameFromURL
    cases url.Parse u <;> rfl
